import Mathlib

/-!
Verification of the bacup backup daemon (galeone/bacup) against its
natural-language specification.

This file shallowly embeds the parts of the Rust source that the claims
C1 to C10 are about:

* `src/backup.rs` — the cadence parser (`Backup::get_hours_and_minutes`,
  `parse_daily`, `parse_weekly`, `parse_monthly`, `parse_when`) and the
  scheduled tick closure in `Backup::schedule`;
* `src/remotes/remote.rs` — `Remote::compress_file`,
  `Remote::remote_archive_path`, `Remote::remote_compressed_file_path`;
* `src/remotes/localhost.rs` — `Localhost::upload_file_compressed`,
  `Localhost::upload_folder`;
* `src/remotes/aws.rs` — `Bucket::list` / `put_object` / `delete` and
  `AwsBucket::upload_folder`;
* `src/services/postgresql.rs`, `src/services/docker.rs` — the `dump`
  methods;
* `src/services/service.rs` — `Dump` and its `Drop` implementation.

Modelling conventions:

* Rust strings are modelled as `List Nat` of Unicode code points where the
  code does character-level work (the cadence parser, object-store keys);
  the claims only exercise the ASCII fragment, so `to_lowercase`, `\d`,
  `char::is_whitespace` are embedded on that fragment.
* Rust `Path`/`PathBuf` values are modelled by `RPath`: an absolute flag
  plus the list of normal components.  `join`, `parent`, `file_name`,
  `strip_prefix` follow the Rust semantics on such normalized paths.
* Fallible operations return `Option`/`Except`; a Rust `unwrap` that can
  fail is modelled by propagating `none` (a panic).
* External effects (subprocess exit status, filesystem contents, remote
  uploads) are supplied as explicit oracle arguments, so that the control
  flow of the embedded functions is exactly that of the source.
-/

namespace Bacup

/-- Code points of a string literal; used to write concrete inputs. -/
def cp (s : String) : List Nat := s.data.map Char.toNat

/-- Decimal digits of `n` as code points, most significant first,
prepended to `acc`.  The fuel argument only bounds the recursion depth;
any fuel at least the digit count gives the decimal rendering. -/
def natCpAux : Nat → Nat → List Nat → List Nat
  | 0, _, acc => acc
  | fuel + 1, n, acc =>
    if n < 10 then (48 + n) :: acc
    else natCpAux fuel (n / 10) ((48 + n % 10) :: acc)

/-- Decimal rendering of a natural number as code points (the embedding
of Rust `format!("{}", n)` for non-negative values). -/
def natCp (n : Nat) : List Nat := natCpAux (n + 1) n []

/-- Decimal rendering of a natural number as a string. -/
def natStr (n : Nat) : String := ⟨(natCp n).map Char.ofNat⟩

/-- Model of a Rust `PathBuf`: whether it is absolute, and its normal
components in order. -/
structure RPath where
  absolute : Bool
  comps : List String
deriving DecidableEq, Repr

/-- Rust `Path::join` with a single normal component (the argument of the
`parent.join(format!(...))` calls, which never contains a separator). -/
def RPath.join1 (p : RPath) (c : String) : RPath :=
  ⟨p.absolute, p.comps ++ [c]⟩

/-- Rust `Path::join` with a path argument: an absolute argument replaces
the receiver, a relative one is appended. -/
def RPath.joinP (p q : RPath) : RPath :=
  if q.absolute then q else ⟨p.absolute, p.comps ++ q.comps⟩

/-- Rust `Path::parent`: `None` for the root or the empty path, otherwise
the path with its last component dropped. -/
def RPath.parentP (p : RPath) : Option RPath :=
  match p.comps with
  | [] => none
  | _ :: _ => some ⟨p.absolute, p.comps.dropLast⟩

/-- Rust `Path::file_name`: the last normal component, if any. -/
def RPath.fileNameP (p : RPath) : Option String :=
  p.comps.getLast?

/-- Rust `Path::strip_prefix`: the relative remainder when `pre` is a
prefix of `p`, the error case otherwise. -/
def RPath.stripPre (p pre : RPath) : Option RPath :=
  if p.absolute = pre.absolute ∧ pre.comps.isPrefixOf p.comps then
    some ⟨false, p.comps.drop pre.comps.length⟩
  else
    none

/-- Whether `pre` is a path prefix of `p` (Rust `Path::starts_with`). -/
def RPath.startsWithP (p pre : RPath) : Bool :=
  p.absolute == pre.absolute && pre.comps.isPrefixOf p.comps

/-! ## Claim C9: object-bucket key handling (src/remotes/aws.rs) -/

/-- Rust `str::trim_start_matches('/')`: drop every leading slash
(code point 47). -/
def trimStartSlashes (s : List Nat) : List Nat :=
  s.dropWhile (fun c => c == 47)

/-- The fields of a `rusoto_s3::ListObjectsV2Request` that `Bucket::list`
fills in (aws.rs lines 92-99). -/
structure ListObjectsV2Request where
  bucket : String
  pfx : Option (List Nat)
deriving DecidableEq, Repr

/-- The fields of a `rusoto_s3::PutObjectRequest` that `Bucket::put_object`
fills in (aws.rs lines 109-118). -/
structure PutObjectRequest where
  bucket : String
  key : List Nat
  body : List Nat
deriving DecidableEq, Repr

/-- The fields of a `rusoto_s3::DeleteObjectRequest` that `Bucket::delete`
fills in (aws.rs lines 121-130). -/
structure DeleteObjectRequest where
  bucket : String
  key : List Nat
deriving DecidableEq, Repr

/-- `Bucket::list`: the prefix sent to the store is the argument with
leading slashes trimmed. -/
def bucketListRequest (bucketName : String) (p : List Nat) :
    ListObjectsV2Request :=
  { bucket := bucketName, pfx := some (trimStartSlashes p) }

/-- `Bucket::put_object`: the key sent is the argument with leading
slashes trimmed. -/
def bucketPutRequest (bucketName : String) (remotePath body : List Nat) :
    PutObjectRequest :=
  { bucket := bucketName, key := trimStartSlashes remotePath, body := body }

/-- `Bucket::delete`: the key is sent verbatim (`remote_path.to_owned()`,
no trimming — unlike `list` and `put_object`). -/
def bucketDeleteRequest (bucketName : String) (remotePath : List Nat) :
    DeleteObjectRequest :=
  { bucket := bucketName, key := remotePath }

/-! ## Claims C6 and C3: compressed artifact naming and gzip bytes
(src/remotes/remote.rs, src/remotes/localhost.rs) -/

/-- A UTC instant as used by `chrono::Utc::now()`, to the precision the
code can observe. -/
structure UtcTime where
  year : Nat
  month : Nat
  day : Nat
  hour : Nat
  minute : Nat
  second : Nat
deriving DecidableEq, Repr

/-- Decimal rendering zero-padded to two digits
(Rust `format!("{:02}")`, chrono `%m`, `%d`, `%H`, `%M`). -/
def pad2s (n : Nat) : String :=
  if n < 10 then "0" ++ natStr n else natStr n

/-- Decimal rendering zero-padded to four digits (chrono `%Y`). -/
def pad4s (n : Nat) : String :=
  if n < 10 then "000" ++ natStr n
  else if n < 100 then "00" ++ natStr n
  else if n < 1000 then "0" ++ natStr n
  else natStr n

/-- `now.format("%Y-%m-%d-%H.%M")` from `remote_archive_path` and
`remote_compressed_file_path`. -/
def stampYmdHM (t : UtcTime) : String :=
  pad4s t.year ++ "-" ++ pad2s t.month ++ "-" ++ pad2s t.day ++ "-"
    ++ pad2s t.hour ++ "." ++ pad2s t.minute

/-- The `match remote_path.parent()` in remote.rs lines 125-128 and
139-142: fall back to `/` when there is no parent. -/
def parentOrRoot (p : RPath) : RPath :=
  match p.parentP with
  | some q => q
  | none => ⟨true, []⟩

/-- `Remote::remote_archive_path` (remote.rs lines 123-135); `none` models
the `file_name().unwrap()` panic on a path with no file name. -/
def remoteArchivePath (t : UtcTime) (remotePath : RPath) : Option RPath :=
  match remotePath.fileNameP with
  | none => none
  | some b =>
    some ((parentOrRoot remotePath).join1 (stampYmdHM t ++ "-" ++ b ++ ".tar.gz"))

/-- `Remote::remote_compressed_file_path` (remote.rs lines 137-149). -/
def remoteCompressedFilePath (t : UtcTime) (remotePath : RPath) : Option RPath :=
  match remotePath.fileNameP with
  | none => none
  | some b =>
    some ((parentOrRoot remotePath).join1 (stampYmdHM t ++ "-" ++ b ++ ".gz"))

/-- `Remote::compress_file` (remote.rs lines 102-121): the file content is
read, written through a gzip encoder whose output buffer is then dropped,
and the function returns the raw `content` vector — not the encoder's
output.  The encoder is passed here as an oracle `gzip`. -/
def compressFile (gzip : List Nat → List Nat) (content : List Nat) : List Nat :=
  let _compressed := gzip content
  content

/-- `Localhost::upload_file_compressed` (localhost.rs lines 144-169):
compress, strip a leading slash from the remote path, create the parent,
and write the "compressed" bytes to the stamped destination.  Returns the
destination path and the bytes written; `none` models the
`parent().unwrap()` / `file_name().unwrap()` panics. -/
def localhostUploadFileCompressed (root : RPath) (t : UtcTime)
    (remotePath : RPath) (gzip : List Nat → List Nat) (content : List Nat) :
    Option (RPath × List Nat) :=
  let compressedBytes := compressFile gzip content
  let remoteRel : RPath := if remotePath.absolute then ⟨false, remotePath.comps⟩ else remotePath
  match remoteRel.parentP with
  | none => none
  | some relParent =>
    let parentDir := root.joinP relParent
    match remoteRel.fileNameP with
    | none => none
    | some base =>
      match remoteCompressedFilePath t ⟨false, [base]⟩ with
      | none => none
      | some stamped => some (parentDir.joinP stamped, compressedBytes)

/-! ## Claim C4: dumper exit status handling
(src/services/postgresql.rs, src/services/docker.rs) -/

/-- Exit status of a subprocess that did run (Rust `ExitStatus`). -/
structure ExitSts where
  code : Int
deriving DecidableEq, Repr

/-- `PostgreSql::dump` (postgresql.rs lines 161-186).  `cwdParentExists`
is the `parent.exists()` filesystem check; `status` is the result of
awaiting `Command::status()`.  The code matches `Ok(_)`, so the exit code
of a subprocess that ran is never inspected. -/
def pgDump (cwd : RPath) (svcName : String) (cwdParentExists : Bool)
    (status : Except String ExitSts) : Except String (Option RPath) :=
  let dest := cwd.join1 (svcName ++ "-dump.sql")
  if !cwdParentExists then
    .error "Folder does not exist."
  else
    match status with
    | .ok _code => .ok (some dest)
    | .error e => .error e

/-- `Docker::dump` (docker.rs lines 111-135), same structure with the
`<name>.dump` destination (the `File::create` that precedes the command is
an external effect and not needed for the claims). -/
def dockerDump (cwd : RPath) (svcName : String) (cwdParentExists : Bool)
    (status : Except String ExitSts) : Except String (Option RPath) :=
  let dest := cwd.join1 (svcName ++ ".dump")
  if !cwdParentExists then
    .error "Folder does not exist."
  else
    match status with
    | .ok _code => .ok (some dest)
    | .error e => .error e

/-! ## Claims C8 and C10: upload_folder prefix stripping
(src/remotes/localhost.rs lines 171-214, src/remotes/aws.rs lines 196-231) -/

/-- Strict lexicographic comparison of code-point lists (the byte order
`OsStr` comparison uses on ASCII names). -/
def cpsLtB : List Nat → List Nat → Bool
  | [], [] => false
  | [], _ :: _ => true
  | _ :: _, [] => false
  | a :: as, b :: bs =>
    if a < b then true else if b < a then false else cpsLtB as bs

/-- Strict comparison of path components. -/
def strLtB (a b : String) : Bool := cpsLtB (cp a) (cp b)

/-- Lexicographic order on component lists with the component order, as
`PathBuf`'s `Ord` compares normal components. -/
def compsLtB : List String → List String → Bool
  | [], [] => false
  | [], _ :: _ => true
  | _ :: _, [] => false
  | a :: as, b :: bs =>
    if strLtB a b then true else if strLtB b a then false else compsLtB as bs

/-- `PathBuf` order: the root component compares below normal components,
then components lexicographically. -/
def RPath.ltB (p q : RPath) : Bool :=
  if p.absolute && !q.absolute then true
  else if q.absolute && !p.absolute then false
  else compsLtB p.comps q.comps

/-- Rust `Iterator::min_by` (first minimal element), `none` on an empty
iterator (the call sites `unwrap` this). -/
def minPath : List RPath → Option RPath
  | [] => none
  | x :: xs => some (xs.foldl (fun acc p => if RPath.ltB p acc then p else acc) x)

/-- The common local prefix both upload_folder implementations and the
pipeline compute: the minimum itself for a list of at most one element,
else its parent. -/
def commonParentOf (paths : List RPath) : Option RPath :=
  match minPath paths with
  | none => none
  | some m => if paths.length ≤ 1 then some m else m.parentP

/-- The per-file loop of `Localhost::upload_folder` (lines 200-211): copy
each file path to `root / remotePre / (p − lp)`, skipping non-files;
`none` models the `strip_prefix(...).unwrap()` panic. -/
def localhostUploadFolderGo (root remotePre lp : RPath)
    (isFile : RPath → Bool) : List RPath → Option (List (RPath × RPath))
  | [] => some []
  | p :: rest =>
    if isFile p then
      match p.stripPre lp with
      | none => none
      | some rel =>
        match localhostUploadFolderGo root remotePre lp isFile rest with
        | none => none
        | some ws => some ((p, root.joinP (remotePre.joinP rel)) :: ws)
    else localhostUploadFolderGo root remotePre lp isFile rest

/-- The leading-separator handling of `Localhost::upload_folder` (lines
192-198): a remote path starting with `/` is made relative. -/
def localRemoteRel (remotePath : RPath) : RPath :=
  if remotePath.absolute then ⟨false, remotePath.comps⟩ else remotePath

/-- `Localhost::upload_folder` (localhost.rs lines 171-214); the result is
the list of (source, destination) copies performed, `none` a panic. -/
def localhostUploadFolder (root : RPath) (isFile : RPath → Bool)
    (paths : List RPath) (remotePath : RPath) :
    Option (List (RPath × RPath)) :=
  match minPath paths with
  | none => none
  | some m =>
    match (if paths.length ≤ 1 then some m else m.parentP) with
    | none => none
    | some lp =>
      localhostUploadFolderGo root (localRemoteRel remotePath) lp isFile paths

/-- The remote-path computation of `AwsBucket::upload_folder` (aws.rs
lines 215-218): `remote_path.join(p.strip_prefix(local_prefix).unwrap())`
for every element, before any file check. -/
def awsRemotePaths (lp remotePath : RPath) :
    List RPath → Option (List RPath)
  | [] => some []
  | p :: rest =>
    match p.stripPre lp with
    | none => none
    | some rel =>
      (awsRemotePaths lp remotePath rest).map
        (fun rs => remotePath.joinP rel :: rs)

/-- `AwsBucket::upload_folder` (aws.rs lines 196-231): compute all remote
paths, upload the file entries concurrently, `join_all` the futures and
drop their results, then return `Ok(())`.  `uploadRes` is the oracle for
the individual `upload_file` results; it does not influence the return
value. -/
def awsUploadFolder (uploadRes : RPath → RPath → Except Unit Unit)
    (isFile : RPath → Bool) (paths : List RPath) (remotePath : RPath) :
    Option (Except Unit Unit × List (RPath × RPath)) :=
  match minPath paths with
  | none => none
  | some m =>
    match (if paths.length ≤ 1 then some m else m.parentP) with
    | none => none
    | some lp =>
      match awsRemotePaths lp remotePath paths with
      | none => none
      | some rps =>
        let ups := (paths.zip rps).filter (fun pr => isFile pr.1)
        let _results := ups.map (fun pr => uploadRes pr.1 pr.2)
        some (.ok (), ups)

/-! ## Claims C1, C2, C7: the scheduled tick (src/backup.rs lines 308-430)
and the Dump drop (src/services/service.rs lines 25-37) -/

/-- Oracles for the external effects one tick can perform. -/
structure TickEnv where
  dumpResult : Except String (Option RPath)
  listResult : List RPath
  isDir : RPath → Bool
  enumerateR : RPath → Except String (List String)

/-- A remote operation issued by the tick, in order. -/
inductive ROp where
  | uploadFolderOp (paths : List RPath) (remote : RPath)
  | uploadFolderCompressedOp (path remote : RPath)
  | uploadFileCompressedOp (path remote : RPath)
  | uploadFileOp (path remote : RPath)
  | enumerateOp (remote : RPath)
  | deleteOp (remote : RPath)
deriving DecidableEq, Repr

/-- Whether an operation is a remote delete. -/
def ROp.isDeleteOp : ROp → Bool
  | .deleteOp _ => true
  | _ => false

/-- How one tick ends: normally (including logged failures) or by a
panic. -/
inductive TickOutcome
  | completed
  | panicked
deriving DecidableEq, Repr

/-- The per-file loop of the tick (backup.rs lines 391-423): compute the
remote path, dispatch on directory/compress, and after a compressed file
upload with `keep_last` set, enumerate the remote parent — the
`if list.len() > to_keep as usize {}` body is empty, so no delete is ever
issued.  `none` models the `unwrap` panics. -/
def tickStepOps (env : TickEnv) (compress : Bool) (keepLast : Option Nat)
    (f remotePath : RPath) : Option (List ROp) :=
  if env.isDir f then some [.uploadFolderCompressedOp f remotePath]
  else if compress then
    match keepLast with
    | none => some [.uploadFileCompressedOp f remotePath]
    | some _toKeep =>
      match remotePath.parentP with
      | none => none
      | some par =>
        some [.uploadFileCompressedOp f remotePath, .enumerateOp par]
  else some [.uploadFileOp f remotePath]

def tickLoop (env : TickEnv) (compress : Bool) (keepLast : Option Nat)
    (remotePre : RPath) (single : Bool) (lp : RPath) :
    List RPath → Option (List ROp)
  | [] => some []
  | f :: rest =>
    match (if single then (f.fileNameP).map (fun b => remotePre.join1 b)
        else (f.stripPre lp).map (fun rel => remotePre.joinP rel)) with
    | none => none
    | some remotePath =>
      match tickStepOps env compress keepLast f remotePath with
      | none => none
      | some ops1 =>
        (tickLoop env compress keepLast remotePre single lp rest).map
          (fun rem => ops1 ++ rem)

/-- The body of the scheduled closure after a successful dump (backup.rs
lines 325-429): list, compute the local prefix, classify, dispatch. -/
def tickCore (env : TickEnv) (compress : Bool) (keepLast : Option Nat)
    (remotePre : RPath) : TickOutcome × List ROp :=
  let localFiles := env.listResult
  let single0 := localFiles.length ≤ 1
  match minPath localFiles with
  | none => (.panicked, [])
  | some m =>
    match (if single0 then some m else m.parentP) with
    | none => (.panicked, [])
    | some lp =>
      let allSame := localFiles.all (fun p => p.startsWithP lp)
      let single := if compress && !single0 && allSame then true else single0
      let files1 := if compress && !single0 && allSame then [lp] else localFiles
      let preOps : List ROp :=
        if !single && allSame && !compress then [.uploadFolderOp files1 remotePre] else []
      let files2 := if !single && allSame && !compress then ([] : List RPath) else files1
      match tickLoop env compress keepLast remotePre single lp files2 with
      | none => (.panicked, preOps)
      | some loopOps => (.completed, preOps ++ loopOps)

/-- `impl Drop for Dump` (service.rs lines 25-37): when the handle owns a
path and the file exists, remove it. -/
def dropDump (dumpPath : Option RPath) (fs : List RPath) : List RPath :=
  match dumpPath with
  | none => fs
  | some p => if p ∈ fs then fs.filter (fun q => q != p) else fs

/-- One scheduled tick (backup.rs lines 308-430): run `dump`, abort on its
error (before any `Dump` exists), otherwise run the tick body; the `Dump`
handle is dropped on every exit path of the closure — normal return and
unwinding alike — which is reflected by applying `dropDump` to the final
local filesystem in both outcomes.  Returns the outcome, the local
filesystem afterwards, and the remote operations issued. -/
def runTick (env : TickEnv) (compress : Bool) (keepLast : Option Nat)
    (remotePre : RPath) (fs : List RPath) :
    TickOutcome × List RPath × List ROp :=
  match env.dumpResult with
  | .error _e => (.completed, fs, [])
  | .ok dumpPath =>
    let (outcome, ops) := tickCore env compress keepLast remotePre
    (outcome, dropDump dumpPath fs, ops)

/-! ## Basic facts about the decimal renderer -/

theorem natCpAux_succ (fuel n : Nat) (acc : List Nat) :
    natCpAux (fuel + 1) n acc =
      if n < 10 then (48 + n) :: acc
      else natCpAux fuel (n / 10) ((48 + n % 10) :: acc) := rfl

theorem natCp_lt10 {n : Nat} (h : n < 10) : natCp n = [48 + n] := by
  simp [natCp, natCpAux_succ, h]

theorem natCp_lt100 {n : Nat} (h10 : 10 ≤ n) (h : n < 100) :
    natCp n = [48 + n / 10, 48 + n % 10] := by
  obtain ⟨f, hf⟩ : ∃ f, n = f + 1 := ⟨n - 1, by omega⟩
  have h1 : ¬ n < 10 := by omega
  have h2 : n / 10 < 10 := by omega
  rw [natCp, natCpAux_succ, if_neg h1, hf, natCpAux_succ, if_pos (hf ▸ h2)]

theorem natCpAux_mem {fuel : Nat} : ∀ {n : Nat} {acc : List Nat},
    (∀ c ∈ acc, 48 ≤ c ∧ c ≤ 57) →
    ∀ c ∈ natCpAux fuel n acc, 48 ≤ c ∧ c ≤ 57 := by
  induction fuel with
  | zero => intro n acc hacc c hc; exact hacc c hc
  | succ f ih =>
    intro n acc hacc c hc
    rw [natCpAux_succ] at hc
    by_cases hn : n < 10
    · rw [if_pos hn] at hc
      rcases List.mem_cons.mp hc with hc | hc
      · omega
      · exact hacc c hc
    · rw [if_neg hn] at hc
      refine ih ?_ c hc
      intro d hd
      rcases List.mem_cons.mp hd with hd | hd
      · have := Nat.mod_lt n (show 0 < 10 by omega)
        omega
      · exact hacc d hd

theorem natCp_mem {n : Nat} : ∀ c ∈ natCp n, 48 ≤ c ∧ c ≤ 57 :=
  natCpAux_mem (by intro c hc; cases hc)

/-! ## Claim C9 theorems -/

theorem trimStartSlashes_head {p : List Nat} {x : Nat}
    (h : (trimStartSlashes p).head? = some x) : x ≠ 47 := by
  induction p with
  | nil => cases h
  | cons a l ih =>
    by_cases ha : a = 47
    · subst ha
      rw [trimStartSlashes, List.dropWhile_cons_of_pos (by decide)] at h
      exact ih h
    · rw [trimStartSlashes, List.dropWhile_cons_of_neg (by simpa using ha)] at h
      simp only [List.head?_cons, Option.some.injEq] at h
      omega

/-- Claim C9 (corrected), counterexample to the claim as stated: the key
the adapter sends in a delete request keeps its leading slash, so it is
not the stripped key the claim requires. -/
theorem c9DeleteKeepsSlash :
    (bucketDeleteRequest "bkt" (cp "/x")).key = cp "/x" ∧
      (cp "/x").head? = some 47 ∧
      trimStartSlashes (cp "/x") ≠ cp "/x" := by
  refine ⟨rfl, by decide, by decide⟩

/-- Claim C9 (amended): the prefix sent by `enumerate`'s listing and the
key sent by `put_object` have every leading slash stripped (so they never
begin with one), while `delete` sends its key verbatim. -/
theorem c9KeyHandling :
    (∀ b p, (bucketListRequest b p).pfx = some (trimStartSlashes p)) ∧
      (∀ b p body, (bucketPutRequest b p body).key = trimStartSlashes p) ∧
      (∀ p x, (trimStartSlashes p).head? = some x → x ≠ 47) ∧
      (∀ b p, (bucketDeleteRequest b p).key = p) := by
  refine ⟨fun b p => rfl, fun b p body => rfl, ?_, fun b p => rfl⟩
  intro p x h
  exact trimStartSlashes_head h

theorem c9KeyHandlingWitness :
    (trimStartSlashes (cp "//k")).head? = some 107 ∧ (107 : Nat) ≠ 47 :=
  ⟨by decide, c9KeyHandling.2.2.1 (cp "//k") 107 (by decide)⟩

/-! ## Claim C3 theorems -/

/-- Claim C3 (code bug): `compress_file` returns the raw file content for
every gzip encoder, and `Localhost::upload_file_compressed` therefore
writes the raw bytes, not the gzip encoding, to the `.gz` destination. -/
theorem c3RawBytesWritten :
    (∀ (gzip : List Nat → List Nat) (content : List Nat),
        compressFile gzip content = content) ∧
      (∀ root t remotePath gzip content dest bytes,
        localhostUploadFileCompressed root t remotePath gzip content
            = some (dest, bytes) →
        bytes = content) := by
  refine ⟨fun gzip content => rfl, ?_⟩
  intro root t remotePath gzip content dest bytes h
  simp only [localhostUploadFileCompressed] at h
  split at h
  · cases h
  · split at h
    · cases h
    · split at h
      · cases h
      · simp only [compressFile, Option.some.injEq, Prod.mk.injEq] at h
        exact h.2.symm

theorem c3RawBytesWrittenWitness :
    ∃ dest,
      localhostUploadFileCompressed ⟨true, ["bk"]⟩
          ⟨2025, 1, 5, 4, 0, 0⟩ ⟨true, ["data", "f.txt"]⟩
          (fun l => 31 :: 139 :: l) [10, 20] = some (dest, [10, 20]) := by
  refine ⟨⟨true, ["bk", "data", "2025-01-05-04.00-f.txt.gz"]⟩, ?_⟩
  have := c3RawBytesWritten.2 ⟨true, ["bk"]⟩ ⟨2025, 1, 5, 4, 0, 0⟩
    ⟨true, ["data", "f.txt"]⟩ (fun l => 31 :: 139 :: l) [10, 20]
    ⟨true, ["bk", "data", "2025-01-05-04.00-f.txt.gz"]⟩ [10, 20]
  exact (by decide :
    localhostUploadFileCompressed ⟨true, ["bk"]⟩ ⟨2025, 1, 5, 4, 0, 0⟩
      ⟨true, ["data", "f.txt"]⟩ (fun l => 31 :: 139 :: l) [10, 20]
      = some (⟨true, ["bk", "data", "2025-01-05-04.00-f.txt.gz"]⟩, [10, 20]))

/-! ## Claim C4 theorem -/

/-- Claim C4 (code bug): both dumpers return `Ok` with a dump handle when
the subprocess ran and exited with the nonzero status 1 — the exit code is
never inspected (`Ok(_)` match), contradicting the claim that a nonzero
exit aborts the tick. -/
theorem c4ExitCodeIgnored :
    pgDump ⟨true, ["wd"]⟩ "db" true (.ok ⟨1⟩)
        = .ok (some ⟨true, ["wd", "db-dump.sql"]⟩) ∧
      dockerDump ⟨true, ["wd"]⟩ "svc" true (.ok ⟨1⟩)
        = .ok (some ⟨true, ["wd", "svc.dump"]⟩) ∧
      (1 : Int) ≠ 0 := by
  refine ⟨rfl, rfl, by decide⟩

/-! ## Claim C6 theorems -/

theorem natCpAux_of_pos {fuel n : Nat} (hfuel : 0 < fuel) (acc : List Nat) :
    natCpAux fuel n acc =
      if n < 10 then (48 + n) :: acc
      else natCpAux (fuel - 1) (n / 10) ((48 + n % 10) :: acc) := by
  obtain ⟨f, rfl⟩ : ∃ f, fuel = f + 1 := ⟨fuel - 1, by omega⟩
  rw [natCpAux_succ]
  rfl

theorem natCp_lt1000 {n : Nat} (h100 : 100 ≤ n) (h : n < 1000) :
    natCp n = [48 + n / 100, 48 + n / 10 % 10, 48 + n % 10] := by
  have hdd : n / 10 / 10 = n / 100 := by omega
  rw [natCp, natCpAux_succ, if_neg (by omega),
    natCpAux_of_pos (by omega), if_neg (by omega),
    natCpAux_of_pos (by omega), if_pos (by omega), hdd]

theorem natCp_lt10000 {n : Nat} (h1000 : 1000 ≤ n) (h : n < 10000) :
    natCp n = [48 + n / 1000, 48 + n / 100 % 10, 48 + n / 10 % 10, 48 + n % 10] := by
  have hdd : n / 10 / 10 = n / 100 := by omega
  have hddd : n / 100 / 10 = n / 1000 := by omega
  rw [natCp, natCpAux_succ, if_neg (by omega),
    natCpAux_of_pos (by omega), if_neg (by omega),
    natCpAux_of_pos (by omega), if_neg (by omega),
    natCpAux_of_pos (by omega), if_pos (by omega), hdd, hddd]

theorem natStr_length (n : Nat) : (natStr n).length = (natCp n).length := by
  simp [natStr, String.length]

theorem natCp_length_lt10 {n : Nat} (h : n < 10) : (natCp n).length = 1 := by
  rw [natCp_lt10 h]; rfl

theorem natCp_length_lt100 {n : Nat} (h10 : 10 ≤ n) (h : n < 100) :
    (natCp n).length = 2 := by
  rw [natCp_lt100 h10 h]; rfl

theorem pad2s_length {n : Nat} (h : n < 100) : (pad2s n).length = 2 := by
  rw [pad2s]
  by_cases h10 : n < 10
  · rw [if_pos h10, String.length_append, natStr_length, natCp_length_lt10 h10]
    rfl
  · rw [if_neg h10, natStr_length, natCp_length_lt100 (by omega) h]

theorem pad4s_length {n : Nat} (h : n < 10000) : (pad4s n).length = 4 := by
  rw [pad4s]
  by_cases h10 : n < 10
  · rw [if_pos h10, String.length_append, natStr_length, natCp_length_lt10 h10]
    rfl
  · rw [if_neg h10]
    by_cases h100 : n < 100
    · rw [if_pos h100, String.length_append, natStr_length,
        natCp_length_lt100 (by omega) h100]
      rfl
    · rw [if_neg h100]
      by_cases h1000 : n < 1000
      · rw [if_pos h1000, String.length_append, natStr_length,
          natCp_lt1000 (by omega) h1000]
        rfl
      · rw [if_neg h1000, natStr_length, natCp_lt10000 (by omega) h]
        rfl

theorem stampYmdHM_length {t : UtcTime} (hy : t.year < 10000)
    (hmo : t.month < 100) (hd : t.day < 100) (hh : t.hour < 100)
    (hmi : t.minute < 100) : (stampYmdHM t).length = 16 := by
  rw [stampYmdHM]
  simp only [String.length_append, pad4s_length hy, pad2s_length hmo,
    pad2s_length hd, pad2s_length hh, pad2s_length hmi]
  rfl

/-- Claim C6: for every remote path with a file name, the compressed-file
artifact is named `<parent>/<UTC stamp>-<basename>.gz` and the compressed
folder artifact `<parent>/<UTC stamp>-<basename>.tar.gz`; the names are
determined by the UTC minute (the seconds of the instant are invisible),
and the stamp is the sixteen-character zero-padded `YYYY-MM-DD-HH.MM`. -/
theorem c6ArtifactNaming :
    ∀ (t : UtcTime) (rp : RPath) (b : String), rp.fileNameP = some b →
      remoteCompressedFilePath t rp
          = some ⟨rp.absolute, rp.comps.dropLast ++ [stampYmdHM t ++ "-" ++ b ++ ".gz"]⟩ ∧
        remoteArchivePath t rp
          = some ⟨rp.absolute, rp.comps.dropLast ++ [stampYmdHM t ++ "-" ++ b ++ ".tar.gz"]⟩ ∧
        (∀ t2 : UtcTime, t.year = t2.year → t.month = t2.month →
          t.day = t2.day → t.hour = t2.hour → t.minute = t2.minute →
          remoteCompressedFilePath t rp = remoteCompressedFilePath t2 rp ∧
            remoteArchivePath t rp = remoteArchivePath t2 rp) ∧
        (t.year < 10000 → t.month < 100 → t.day < 100 → t.hour < 100 →
          t.minute < 100 → (stampYmdHM t).length = 16) := by
  intro t rp b hb
  have hcomps : rp.comps ≠ [] := by
    intro hnil
    rw [RPath.fileNameP, hnil] at hb
    cases hb
  have hpar : parentOrRoot rp = ⟨rp.absolute, rp.comps.dropLast⟩ := by
    rcases hc : rp.comps with _ | ⟨a, l⟩
    · exact absurd hc hcomps
    · simp [parentOrRoot, RPath.parentP, hc]
  have hstamp : ∀ t2 : UtcTime, t.year = t2.year → t.month = t2.month →
      t.day = t2.day → t.hour = t2.hour → t.minute = t2.minute →
      stampYmdHM t = stampYmdHM t2 := by
    intro t2 h1 h2 h3 h4 h5
    rw [stampYmdHM, stampYmdHM, h1, h2, h3, h4, h5]
  refine ⟨?_, ?_, ?_, fun hy hmo hd hh hmi => stampYmdHM_length hy hmo hd hh hmi⟩
  · simp [remoteCompressedFilePath, hb, hpar, RPath.join1]
  · simp [remoteArchivePath, hb, hpar, RPath.join1]
  · intro t2 h1 h2 h3 h4 h5
    constructor
    · rw [remoteCompressedFilePath, remoteCompressedFilePath, hb,
        hstamp t2 h1 h2 h3 h4 h5]
    · rw [remoteArchivePath, remoteArchivePath, hb, hstamp t2 h1 h2 h3 h4 h5]

theorem c6ArtifactNamingWitness :
    remoteCompressedFilePath ⟨2025, 1, 5, 4, 0, 0⟩ ⟨true, ["sites", "site"]⟩
        = some ⟨true, ["sites", "2025-01-05-04.00-site.gz"]⟩ ∧
      remoteArchivePath ⟨2025, 1, 5, 4, 0, 59⟩ ⟨true, ["sites", "site"]⟩
        = some ⟨true, ["sites", "2025-01-05-04.00-site.tar.gz"]⟩ := by
  have h1 := c6ArtifactNaming ⟨2025, 1, 5, 4, 0, 0⟩ ⟨true, ["sites", "site"]⟩
    "site" rfl
  have h2 := c6ArtifactNaming ⟨2025, 1, 5, 4, 0, 59⟩ ⟨true, ["sites", "site"]⟩
    "site" rfl
  refine ⟨?_, ?_⟩
  · rw [h1.1]
    decide
  · rw [h2.2.1]
    decide

/-! ## Claims C1, C2, C7 theorems -/

theorem dropDump_not_mem (p : RPath) (fs : List RPath) :
    p ∉ dropDump (some p) fs := by
  rw [dropDump]
  by_cases hm : p ∈ fs
  · rw [if_pos hm]
    intro hmem
    have := (List.mem_filter.mp hmem).2
    simp at this
  · rw [if_neg hm]
    exact hm

/-- Claim C7: whenever `dump` produced a handle owning path `p`, the path
is gone from the local filesystem after the tick, whatever the outcome —
the handle is dropped on every exit path, normal or unwinding, and the
drop removes the file when it exists. -/
theorem c7DumpScope :
    ∀ (env : TickEnv) (compress : Bool) (keepLast : Option Nat)
      (remotePre : RPath) (fs : List RPath) (p : RPath),
      env.dumpResult = .ok (some p) →
      p ∉ (runTick env compress keepLast remotePre fs).2.1 := by
  intro env c k r fs p h
  rcases htc : tickCore env c k r with ⟨o, ops⟩
  simp only [runTick, h, htc]
  exact dropDump_not_mem p fs

/-- A concrete environment for the tick witnesses: the dump produced
`wd/main-dump.sql`, which is also the single listed artifact. -/
def tickEnvW : TickEnv :=
  { dumpResult := .ok (some ⟨true, ["wd", "main-dump.sql"]⟩)
    listResult := [⟨true, ["wd", "main-dump.sql"]⟩]
    isDir := fun _ => false
    enumerateR := fun _ => .ok ["a.gz", "b.gz"] }

theorem c7DumpScopeWitness :
    (⟨true, ["wd", "main-dump.sql"]⟩ : RPath) ∉
      (runTick tickEnvW true (some 3) ⟨true, ["bk"]⟩
        [⟨true, ["wd", "main-dump.sql"]⟩, ⟨true, ["wd", "keep.txt"]⟩]).2.1 :=
  c7DumpScope tickEnvW true (some 3) ⟨true, ["bk"]⟩
    [⟨true, ["wd", "main-dump.sql"]⟩, ⟨true, ["wd", "keep.txt"]⟩]
    ⟨true, ["wd", "main-dump.sql"]⟩ rfl

/-- A concrete environment whose `list()` returns the empty list (as the
database and container sources do when the dump artifact is missing). -/
def tickEnvEmptyList : TickEnv :=
  { dumpResult := .ok (some ⟨true, ["wd", "db-dump.sql"]⟩)
    listResult := []
    isDir := fun _ => false
    enumerateR := fun _ => .ok [] }

/-- Claim C2 (code bug): with an empty enumeration the tick panics — the
`min_by(...).unwrap()` at backup.rs line 342-346 runs before any emptiness
check — instead of completing as a no-op success.  The dump file is still
removed by the unwinding drop. -/
theorem c2EmptyListPanics :
    tickEnvEmptyList.listResult = [] ∧
      runTick tickEnvEmptyList false none ⟨true, ["bk"]⟩
          [⟨true, ["wd", "db-dump.sql"]⟩, ⟨true, ["wd", "keep.txt"]⟩]
        = (.panicked, [⟨true, ["wd", "keep.txt"]⟩], []) := by
  refine ⟨rfl, by decide⟩

theorem tickStepOps_all_not_delete (env : TickEnv) (c : Bool)
    (k : Option Nat) (f remotePath : RPath) (ops1 : List ROp)
    (h : tickStepOps env c k f remotePath = some ops1) :
    ops1.all (fun op => !op.isDeleteOp) = true := by
  unfold tickStepOps at h
  split at h
  · cases h
    rfl
  · split at h
    · split at h
      · cases h
        rfl
      · split at h
        · cases h
        · cases h
          rfl
    · cases h
      rfl

theorem tickLoop_all_not_delete (env : TickEnv) (c : Bool)
    (k : Option Nat) (r : RPath) (s : Bool) (lp : RPath) :
    ∀ (files : List RPath) (ops : List ROp),
      tickLoop env c k r s lp files = some ops →
      ops.all (fun op => !op.isDeleteOp) = true := by
  intro files
  induction files with
  | nil =>
    intro ops h
    simp only [tickLoop, Option.some.injEq] at h
    subst h
    rfl
  | cons f rest ih =>
    intro ops h
    rw [tickLoop] at h
    split at h
    · cases h
    · rcases hso : tickStepOps env c k f _ with _ | ops1
      · rw [hso] at h
        cases h
      · rw [hso] at h
        rcases Option.map_eq_some'.mp h with ⟨rem, hrem, hops⟩
        subst hops
        rw [List.all_append, Bool.and_eq_true]
        exact ⟨tickStepOps_all_not_delete env c k f _ ops1 hso, ih rem hrem⟩

theorem tickCore_all_not_delete (env : TickEnv) (c : Bool) (k : Option Nat)
    (r : RPath) :
    ((tickCore env c k r).2).all (fun op => !op.isDeleteOp) = true := by
  rw [tickCore]
  split
  · rfl
  · split
    · rfl
    · simp only []
      split
      · (repeat' split) <;> rfl
      · rename_i loopOps hl
        simp only [List.all_append, Bool.and_eq_true]
        refine ⟨?_, tickLoop_all_not_delete _ _ _ _ _ _ _ _ hl⟩
        (repeat' split) <;> rfl

/-- Claim C1 (code bug): no tick ever issues a remote delete — the
retention branch after a compressed file upload with `keep_last` set only
enumerates and logs; the `if list.len() > to_keep as usize` body is empty
(backup.rs line 413), so the oldest surplus artifacts are never removed. -/
theorem c1NoDelete :
    ∀ (env : TickEnv) (compress : Bool) (keepLast : Option Nat)
      (remotePre : RPath) (fs : List RPath),
      ((runTick env compress keepLast remotePre fs).2.2).all
          (fun op => !op.isDeleteOp) = true := by
  intro env c k r fs
  rcases hd : env.dumpResult with e | dp
  · simp only [runTick, hd]
    rfl
  · rcases htc : tickCore env c k r with ⟨o, ops⟩
    simp only [runTick, hd, htc]
    have := tickCore_all_not_delete env c k r
    rw [htc] at this
    exact this

/-! ## Claims C8 and C10 theorems -/

theorem isPrefixOf_append_self : ∀ (a b : List String), a.isPrefixOf (a ++ b) = true := by
  intro a b
  induction a with
  | nil => cases b <;> rfl
  | cons x xs ih =>
    show (x == x && xs.isPrefixOf (xs ++ b)) = true
    rw [beq_self_eq_true, ih]
    rfl

theorem minPath_eq_none_iff (paths : List RPath) :
    minPath paths = none ↔ paths = [] := by
  cases paths with
  | nil => simp [minPath]
  | cons a t => simp [minPath]

theorem stripPre_of_startsWith {p pre : RPath}
    (h : p.startsWithP pre = true) :
    p.stripPre pre = some ⟨false, p.comps.drop pre.comps.length⟩ := by
  rw [RPath.startsWithP, Bool.and_eq_true] at h
  rw [RPath.stripPre, if_pos ⟨by simpa using h.1, h.2⟩]

theorem localhostUploadFolderGo_eq (root remotePre lp : RPath)
    (isFile : RPath → Bool) :
    ∀ files : List RPath, (∀ p ∈ files, p.startsWithP lp = true) →
      localhostUploadFolderGo root remotePre lp isFile files
        = some ((files.filter isFile).map fun p =>
            (p, root.joinP (remotePre.joinP ⟨false, p.comps.drop lp.comps.length⟩))) := by
  intro files
  induction files with
  | nil => intro _; rfl
  | cons p rest ih =>
    intro hall
    rw [localhostUploadFolderGo]
    by_cases hf : isFile p
    · rw [if_pos hf, stripPre_of_startsWith (hall p (List.mem_cons_self p rest)),
        ih (fun q hq => hall q (List.mem_cons_of_mem p hq))]
      simp [List.filter_cons, hf]
    · rw [if_neg hf, ih (fun q hq => hall q (List.mem_cons_of_mem p hq))]
      simp [List.filter_cons, hf]

theorem joinP_of_rel (a b : RPath) (hb : b.absolute = false) :
    a.joinP b = ⟨a.absolute, a.comps ++ b.comps⟩ := by
  rw [RPath.joinP, if_neg (by simp [hb])]

theorem dest_inside (root remotePre rel : RPath)
    (hrp : remotePre.absolute = false) (hrel : rel.absolute = false) :
    (root.joinP (remotePre.joinP rel)).startsWithP (root.joinP remotePre) = true := by
  rw [joinP_of_rel _ _ hrel, joinP_of_rel _ _ hrp,
    joinP_of_rel _ _ (by simpa using hrp), RPath.startsWithP]
  simp only [Bool.and_eq_true, beq_iff_eq]
  refine ⟨trivial, ?_⟩
  rw [← List.append_assoc]
  exact isPrefixOf_append_self _ _

theorem localRemoteRel_not_abs (remotePath : RPath) :
    (localRemoteRel remotePath).absolute = false := by
  rw [localRemoteRel]
  by_cases h : remotePath.absolute
  · rw [if_pos h]
  · rw [if_neg h]
    simpa using h

theorem awsRemotePaths_eq (lp remotePath : RPath) :
    ∀ paths : List RPath, (∀ p ∈ paths, p.startsWithP lp = true) →
      awsRemotePaths lp remotePath paths
        = some (paths.map fun p =>
            remotePath.joinP ⟨false, p.comps.drop lp.comps.length⟩) := by
  intro paths
  induction paths with
  | nil => intro _; rfl
  | cons p rest ih =>
    intro hall
    rw [awsRemotePaths, stripPre_of_startsWith (hall p (List.mem_cons_self p rest)),
      ih (fun q hq => hall q (List.mem_cons_of_mem p hq))]
    rfl

theorem zip_map_filter (f : RPath → RPath) (pred : RPath → Bool) :
    ∀ l : List RPath,
      (l.zip (l.map f)).filter (fun pr => pred pr.1)
        = (l.filter pred).map (fun p => (p, f p)) := by
  intro l
  induction l with
  | nil => rfl
  | cons a t ih =>
    simp only [List.map_cons, List.zip_cons_cons, List.filter_cons]
    by_cases ha : pred a
    · simp [ha, ih]
    · simp [ha, ih]

theorem awsUploadFolder_eval
    (uploadRes : RPath → RPath → Except Unit Unit) (isFile : RPath → Bool)
    (paths : List RPath) (remotePath cpar : RPath)
    (hcp : commonParentOf paths = some cpar)
    (hall : ∀ p ∈ paths, p.startsWithP cpar = true) :
    awsUploadFolder uploadRes isFile paths remotePath
      = some (.ok (), (paths.filter isFile).map fun p =>
          (p, remotePath.joinP ⟨false, p.comps.drop cpar.comps.length⟩)) := by
  rcases hmp : minPath paths with _ | m
  · rw [commonParentOf, hmp] at hcp
    cases hcp
  · rw [commonParentOf, hmp] at hcp
    simp only [] at hcp
    rw [awsUploadFolder, hmp]
    simp only []
    rw [hcp]
    simp only []
    rw [awsRemotePaths_eq _ _ paths hall]
    simp only [Option.some.injEq, Prod.mk.injEq, true_and]
    rw [zip_map_filter]

/-- Claim C8 (corrected), counterexample to the claim as stated: the two
absolute files `/a/b/c` and `/a/d` share the directory ancestor `/a`, yet
`upload_folder` panics (`strip_prefix(...).unwrap()`) because `/a/d` does
not extend the computed common parent `/a/b`, so the files are not
written at all. -/
theorem c8SharedAncestorPanics :
    localhostUploadFolder ⟨true, ["r"]⟩ (fun _ => true)
        [⟨true, ["a", "b", "c"]⟩, ⟨true, ["a", "d"]⟩] ⟨true, ["dst"]⟩ = none
      ∧ (⟨true, ["a", "b", "c"]⟩ : RPath).startsWithP ⟨true, ["a"]⟩ = true
      ∧ (⟨true, ["a", "d"]⟩ : RPath).startsWithP ⟨true, ["a"]⟩ = true
      ∧ commonParentOf [⟨true, ["a", "b", "c"]⟩, ⟨true, ["a", "d"]⟩]
          = some ⟨true, ["a", "b"]⟩ := by
  refine ⟨by decide, by decide, by decide, by decide⟩

/-- Claim C8 (amended): for a non-empty list of local paths all extending
the computed common parent (the lexicographically smallest element itself
for a singleton, else its parent), `Localhost::upload_folder` copies each
file entry to `root / remote_prefix / (local − common_parent)` — all
destinations inside the remote prefix — and `AwsBucket::upload_folder`
uploads each file entry to `remote_prefix / (local − common_parent)`. -/
theorem c8UploadFolderStripping :
    ∀ (root remotePath : RPath) (isFile : RPath → Bool)
      (uploadRes : RPath → RPath → Except Unit Unit)
      (paths : List RPath) (cpar : RPath),
      commonParentOf paths = some cpar →
      (∀ p ∈ paths, p.startsWithP cpar = true) →
      (localhostUploadFolder root isFile paths remotePath
          = some ((paths.filter isFile).map fun p =>
              (p, root.joinP ((localRemoteRel remotePath).joinP
                    ⟨false, p.comps.drop cpar.comps.length⟩))))
        ∧ (∀ p ∈ paths.filter isFile,
            ((root.joinP ((localRemoteRel remotePath).joinP
                ⟨false, p.comps.drop cpar.comps.length⟩))).startsWithP
              (root.joinP (localRemoteRel remotePath)) = true)
        ∧ (awsUploadFolder uploadRes isFile paths remotePath
            = some (.ok (), (paths.filter isFile).map fun p =>
                (p, remotePath.joinP ⟨false, p.comps.drop cpar.comps.length⟩))) := by
  intro root remotePath isFile uploadRes paths cpar hcp hall
  rcases hmp : minPath paths with _ | m
  · rw [commonParentOf, hmp] at hcp
    cases hcp
  · have hcp2 := hcp
    rw [commonParentOf, hmp] at hcp2
    simp only [] at hcp2
    refine ⟨?_, ?_, ?_⟩
    · rw [localhostUploadFolder, hmp]
      simp only []
      rw [hcp2]
      simp only []
      rw [localhostUploadFolderGo_eq _ _ _ _ paths hall]
    · intro p _
      exact dest_inside root (localRemoteRel remotePath) _
        (localRemoteRel_not_abs remotePath) rfl
    · exact awsUploadFolder_eval uploadRes isFile paths remotePath cpar hcp hall

theorem c8UploadFolderStrippingWitness :
    localhostUploadFolder ⟨true, ["r"]⟩ (fun _ => true)
        [⟨true, ["a", "b", "c"]⟩, ⟨true, ["a", "b", "d"]⟩] ⟨true, ["dst"]⟩
      = some
          [(⟨true, ["a", "b", "c"]⟩, ⟨true, ["r", "dst", "c"]⟩),
            (⟨true, ["a", "b", "d"]⟩, ⟨true, ["r", "dst", "d"]⟩)] := by
  have h := (c8UploadFolderStripping ⟨true, ["r"]⟩ ⟨true, ["dst"]⟩
    (fun _ => true) (fun _ _ => .ok ())
    [⟨true, ["a", "b", "c"]⟩, ⟨true, ["a", "b", "d"]⟩] ⟨true, ["a", "b"]⟩
    (by decide) (by decide)).1
  rw [h]
  decide

/-- Claim C10 (corrected), counterexample to the claim as stated: on the
non-empty list `[/a/b/c, /a/e]` the object-bucket `upload_folder` panics
while computing the remote paths, so it does not return `Ok`. -/
theorem c10PanicNotOk :
    (awsUploadFolder (fun _ _ => .ok ()) (fun _ => true)
        [⟨true, ["a", "b", "c"]⟩, ⟨true, ["a", "e"]⟩] ⟨true, ["dst"]⟩).isNone
      = true := by
  decide

/-- Claim C10 (amended): whenever the remote-path computation succeeds
(every element extends the computed common parent), the object-bucket
`upload_folder` returns `Ok` with the same uploads for every oracle of
per-file upload results — the joined futures' results are discarded, so
failed uploads never surface. -/
theorem c10UploadFolderAlwaysOk :
    ∀ (remotePath : RPath) (isFile : RPath → Bool)
      (uploadRes1 uploadRes2 : RPath → RPath → Except Unit Unit)
      (paths : List RPath) (cpar : RPath),
      commonParentOf paths = some cpar →
      (∀ p ∈ paths, p.startsWithP cpar = true) →
      awsUploadFolder uploadRes1 isFile paths remotePath
          = awsUploadFolder uploadRes2 isFile paths remotePath
        ∧ ∃ ups, awsUploadFolder uploadRes1 isFile paths remotePath
            = some (.ok (), ups) := by
  intro remotePath isFile u1 u2 paths cpar hcp hall
  have h1 := awsUploadFolder_eval u1 isFile paths remotePath cpar hcp hall
  have h2 := awsUploadFolder_eval u2 isFile paths remotePath cpar hcp hall
  exact ⟨h1.trans h2.symm, _, h1⟩

theorem c10UploadFolderAlwaysOkWitness :
    awsUploadFolder (fun _ _ => .error ()) (fun _ => true)
          [⟨true, ["a", "b", "c"]⟩, ⟨true, ["a", "b", "d"]⟩] ⟨true, ["dst"]⟩
        = awsUploadFolder (fun _ _ => .ok ()) (fun _ => true)
          [⟨true, ["a", "b", "c"]⟩, ⟨true, ["a", "b", "d"]⟩] ⟨true, ["dst"]⟩
      ∧ ∃ ups,
        awsUploadFolder (fun _ _ => .error ()) (fun _ => true)
            [⟨true, ["a", "b", "c"]⟩, ⟨true, ["a", "b", "d"]⟩] ⟨true, ["dst"]⟩
          = some (.ok (), ups) :=
  c10UploadFolderAlwaysOk ⟨true, ["dst"]⟩ (fun _ => true)
    (fun _ _ => .error ()) (fun _ _ => .ok ())
    [⟨true, ["a", "b", "c"]⟩, ⟨true, ["a", "b", "d"]⟩] ⟨true, ["a", "b"]⟩
    (by decide) (by decide)

/-! ## Claim C5: the cadence parser (src/backup.rs lines 63-234)

The parser works character by character (`contains`, `replace`, the regex
`(\d{2}):(\d{2})`, `trim`, `parse::<i8>()`), so it is embedded on code
point lists.  The claims exercise only the ASCII fragment, on which
`str::to_lowercase` and the regex digit class are the functions below. -/

/-- ASCII digit class (`\d` on the inputs of interest). -/
def isDigitCp (c : Nat) : Bool := 48 ≤ c && c ≤ 57

/-- ASCII lowercasing of one code point (`str::to_lowercase` on ASCII). -/
def toLowerCp (c : Nat) : Nat := if 65 ≤ c && c ≤ 90 then c + 32 else c

/-- `str::to_lowercase` on the ASCII fragment. -/
def lowerCp (s : List Nat) : List Nat := s.map toLowerCp

/-- `str::starts_with` on code points. -/
def startsWithCp : List Nat → List Nat → Bool
  | _, [] => true
  | [], _ :: _ => false
  | a :: s, b :: p => a == b && startsWithCp s p

/-- `str::contains` on code points. -/
def containsCp : List Nat → List Nat → Bool
  | [], pat => pat.isEmpty
  | a :: rest, pat => startsWithCp (a :: rest) pat || containsCp rest pat

/-- One pass of `str::replace(pat, "")`: drop the leftmost non-overlapping
occurrences of `pat`.  The fuel only bounds recursion depth; any fuel at
least the list length computes the replacement. -/
def replAux (pat : List Nat) : Nat → List Nat → List Nat
  | _, [] => []
  | 0, s => s
  | fuel + 1, a :: rest =>
    if startsWithCp (a :: rest) pat then
      replAux pat fuel (List.drop (pat.length - 1) rest)
    else a :: replAux pat fuel rest

/-- `str::replace(pat, "")` on code points. -/
def replaceCp (s pat : List Nat) : List Nat :=
  if pat.isEmpty then s else replAux pat s.length s

/-- Try the regex `(\d{2}):(\d{2})` at the head of the list, returning the
captured (hours, minutes). -/
def hmAt : List Nat → Option (Nat × Nat)
  | a :: b :: c :: d :: e :: _ =>
    if isDigitCp a && isDigitCp b && c == 58 && isDigitCp d && isDigitCp e then
      some ((a - 48) * 10 + (b - 48), (d - 48) * 10 + (e - 48))
    else none
  | _ => none

/-- Leftmost match of `(\d{2}):(\d{2})` (how `Regex::captures` scans). -/
def findHMAux : List Nat → Option (Nat × Nat)
  | [] => none
  | a :: rest =>
    match hmAt (a :: rest) with
    | some r => some r
    | none => findHMAux rest

/-- `Backup::get_hours_and_minutes` (backup.rs lines 63-72): capture the
first `(\d{2}):(\d{2})` match and validate `HH ∈ [0,24)`, `MM ∈ [0,60)`. -/
def getHoursAndMinutes (s : List Nat) : Option (Nat × Nat) :=
  match findHMAux s with
  | none => none
  | some (h, m) => if h < 24 && m < 60 then some (h, m) else none

/-- ASCII whitespace (`char::is_whitespace` on the inputs of interest). -/
def isWsCp (c : Nat) : Bool := c == 32 || c == 9 || c == 10 || c == 11 || c == 12 || c == 13

/-- `str::trim` on code points. -/
def trimCp (s : List Nat) : List Nat :=
  ((s.dropWhile isWsCp).reverse.dropWhile isWsCp).reverse

/-- Value of a non-empty all-digit code point list. -/
def digitsVal (s : List Nat) : Option Nat :=
  if s.isEmpty then none
  else if s.all isDigitCp then
    some (s.foldl (fun a c => a * 10 + (c - 48)) 0)
  else none

/-- `str::parse::<i8>()`: optional sign, digits, range check. -/
def parseI8 (s : List Nat) : Option Int :=
  match s with
  | [] => none
  | a :: rest =>
    if a == 45 then
      (digitsVal rest).bind (fun v => if v ≤ 128 then some (-(v : Int)) else none)
    else if a == 43 then
      (digitsVal rest).bind (fun v => if v ≤ 127 then some ((v : Int)) else none)
    else
      (digitsVal (a :: rest)).bind (fun v => if v ≤ 127 then some ((v : Int)) else none)

/-- `format!("{:02}:{:02}", hm.0, hm.1)`: the time token that is removed
after a successful capture. -/
def pad2c (n : Nat) : List Nat := if n < 10 then 48 :: natCp n else natCp n

/-- The removed time token `HH:MM`. -/
def timeTok (h m : Nat) : List Nat := pad2c h ++ 58 :: pad2c m

/-- Join the seven cron fields with single spaces, as the
`format!("{} {} {} {} {} {} {}", ...)` calls do. -/
def joinSp : List (List Nat) → List Nat
  | [] => []
  | [f] => f
  | f :: rest => f ++ 32 :: joinSp rest

/-- `Backup::parse_daily` (backup.rs lines 74-106). -/
def parseDaily (input : List Nat) : Option (List Nat) :=
  if containsCp input (cp "daily") then
    let input1 := replaceCp input (cp "daily")
    match getHoursAndMinutes input1 with
    | none => none
    | some (h, m) =>
      let input2 := trimCp (replaceCp input1 (timeTok h m))
      if input2.isEmpty then
        some (joinSp [[48], natCp m, natCp h, [42], [42], [42], [42]])
      else none
  else none

/-- `Backup::parse_monthly` (backup.rs lines 161-204). -/
def parseMonthly (input : List Nat) : Option (List Nat) :=
  if containsCp input (cp "monthly") then
    let input1 := replaceCp input (cp "monthly")
    match getHoursAndMinutes input1 with
    | none => none
    | some (h, m) =>
      let input2 := trimCp (replaceCp input1 (timeTok h m))
      match parseI8 input2 with
      | none => none
      | some day =>
        if 1 ≤ day ∧ day < 32 then
          some (joinSp [[48], natCp m, natCp h, natCp day.toNat, [42], [42], [42]])
        else none
  else none

/-- The weekday table of `Backup::parse_weekly`, lowercased: short name,
long name, `number_from_monday`. -/
def weekdayTable : List (List Nat × List Nat × Nat) :=
  [(cp "mon", cp "monday", 1), (cp "tue", cp "tuesday", 2),
   (cp "wed", cp "wednesday", 3), (cp "thu", cp "thursday", 4),
   (cp "fri", cp "friday", 5), (cp "sat", cp "saturday", 6),
   (cp "sun", cp "sunday", 7)]

/-- The loop body of `Backup::parse_weekly` (backup.rs lines 108-159):
find the first weekday whose short or long name occurs, remove it (long
name preferred), capture the time, and require the leftover to be empty or
exactly `weekly`. -/
def weeklyGo : List (List Nat × List Nat × Nat) → List Nat → Option (List Nat)
  | [], _ => none
  | (short, long, w) :: rest, input =>
    let hasShort := containsCp input short
    let hasLong := containsCp input long
    if hasShort || hasLong then
      let input1 := replaceCp input (if hasLong then long else short)
      match getHoursAndMinutes input1 with
      | none => none
      | some (h, m) =>
        let input2 := trimCp (replaceCp input1 (timeTok h m))
        if input2.isEmpty || input2 == cp "weekly" then
          some (joinSp [[48], natCp m, natCp h, [42], [42], natCp w, [42]])
        else none
    else weeklyGo rest input

/-- `Backup::parse_weekly`. -/
def parseWeekly (input : List Nat) : Option (List Nat) :=
  weeklyGo weekdayTable input

/-- `Backup::parse_when` (backup.rs lines 206-234): lowercase, then try
daily, monthly, weekly in that order; `none` when all three grammars
reject (the caller then falls back to handing the raw string to the cron
parser). -/
def parseWhen (whenStr : List Nat) : Option (List Nat) :=
  let input := lowerCp whenStr
  match parseDaily input with
  | some r => some r
  | none =>
    match parseMonthly input with
    | some r => some r
    | none => parseWeekly input

/-! ## Machinery for the cadence-parser proofs -/

theorem pad2c_eq {n : Nat} (h : n < 100) :
    pad2c n = [48 + n / 10, 48 + n % 10] := by
  rw [pad2c]
  by_cases h10 : n < 10
  · rw [if_pos h10, natCp_lt10 h10]
    have h1 : n / 10 = 0 := by omega
    have h2 : n % 10 = n := by omega
    rw [h1, h2]
  · rw [if_neg h10, natCp_lt100 (by omega) h]

theorem isDigitCp_true {c : Nat} (h1 : 48 ≤ c) (h2 : c ≤ 57) :
    isDigitCp c = true := by
  simp [isDigitCp]
  omega

theorem isDigitCp_false {c : Nat} (h : c < 48 ∨ 57 < c) :
    isDigitCp c = false := by
  simp [isDigitCp]
  omega

theorem beqn_false {a b : Nat} (h : a ≠ b) : (a == b) = false := by
  simp [h]

theorem startsWithCp_refl : ∀ s : List Nat, startsWithCp s s = true := by
  intro s
  induction s with
  | nil => rfl
  | cons a rest ih => simp [startsWithCp, ih]

theorem startsWithCp_length_le :
    ∀ {s pat : List Nat}, startsWithCp s pat = true → pat.length ≤ s.length := by
  intro s
  induction s with
  | nil =>
    intro pat h
    cases pat with
    | nil => simp
    | cons b p => cases h
  | cons a rest ih =>
    intro pat h
    cases pat with
    | nil => simp
    | cons b p =>
      rw [startsWithCp, Bool.and_eq_true] at h
      have := ih h.2
      simp only [List.length_cons]
      omega

theorem startsWithCp_pat_nil : ∀ s : List Nat, startsWithCp s [] = true := by
  intro s
  cases s with
  | nil => rfl
  | cons a rest => rfl

theorem startsWithCp_append_sep {pat tail : List Nat}
    (hpat : ∀ y ∈ pat, 97 ≤ y) (htail : ∀ x ∈ tail, x < 97) :
    ∀ conc : List Nat,
      startsWithCp (conc ++ tail) pat = startsWithCp conc pat := by
  intro conc
  induction conc generalizing pat with
  | nil =>
    cases pat with
    | nil => rw [startsWithCp_pat_nil, startsWithCp_pat_nil]
    | cons p ps =>
      simp only [List.nil_append]
      cases tail with
      | nil => rfl
      | cons t ts =>
        have hp : 97 ≤ p := hpat p (List.mem_cons_self p ps)
        have ht : t < 97 := htail t (List.mem_cons_self t ts)
        have hne : (t == p) = false := beqn_false (by omega)
        show (t == p && startsWithCp ts ps) = false
        rw [hne, Bool.false_and]
  | cons c cs ih =>
    cases pat with
    | nil => rw [startsWithCp_pat_nil, startsWithCp_pat_nil]
    | cons p ps =>
      show (c == p && startsWithCp (cs ++ tail) ps)
          = (c == p && startsWithCp cs ps)
      rw [ih (fun y hy => hpat y (List.mem_cons_of_mem p hy))]

theorem containsCp_nil_pat : ∀ s : List Nat, containsCp s [] = true := by
  intro s
  cases s with
  | nil => rfl
  | cons a rest => rfl

theorem containsCp_false_of_head_notin {p : Nat} {ps : List Nat} :
    ∀ s : List Nat, (∀ x ∈ s, x ≠ p) → containsCp s (p :: ps) = false := by
  intro s
  induction s with
  | nil => intro _; rfl
  | cons a rest ih =>
    intro hall
    rw [containsCp, startsWithCp,
      beqn_false (hall a (List.mem_cons_self a rest)), Bool.false_and,
      Bool.false_or]
    exact ih (fun x hx => hall x (List.mem_cons_of_mem a hx))

theorem containsCp_append_sep {pat tail : List Nat}
    (hpat : ∀ y ∈ pat, 97 ≤ y) (htail : ∀ x ∈ tail, x < 97) :
    ∀ conc : List Nat,
      containsCp (conc ++ tail) pat = containsCp conc pat := by
  intro conc
  induction conc with
  | nil =>
    simp only [List.nil_append]
    cases pat with
    | nil => rw [containsCp_nil_pat]; rfl
    | cons p ps =>
      rw [containsCp_false_of_head_notin tail
        (fun x hx => by have := htail x hx; have := hpat p (List.mem_cons_self p ps); omega)]
      rfl
  | cons c cs ih =>
    simp only [List.cons_append, containsCp, List.append_eq]
    rw [ih]
    have h2 := startsWithCp_append_sep hpat htail (c :: cs)
    rw [List.cons_append] at h2
    rw [h2]

theorem replAux_nil (pat : List Nat) (fuel : Nat) :
    replAux pat fuel [] = [] := by
  cases fuel with
  | zero => rfl
  | succ f => rfl

theorem replAux_zero (pat s : List Nat) : replAux pat 0 s = s := by
  cases s with
  | nil => rfl
  | cons a rest => rfl

theorem replAux_succ_cons (pat : List Nat) (fuel a : Nat) (rest : List Nat) :
    replAux pat (fuel + 1) (a :: rest) =
      if startsWithCp (a :: rest) pat then
        replAux pat fuel (List.drop (pat.length - 1) rest)
      else a :: replAux pat fuel rest := rfl

theorem replAux_fuel {pat : List Nat} :
    ∀ (fuel : Nat) (s : List Nat), s.length ≤ fuel →
      replAux pat fuel s = replAux pat s.length s := by
  intro fuel
  induction fuel using Nat.strong_induction_on with
  | _ fuel ih =>
    intro s hs
    cases s with
    | nil => rw [replAux_nil, replAux_nil]
    | cons a rest =>
      cases fuel with
      | zero => simp at hs
      | succ f =>
        simp only [List.length_cons] at hs ⊢
        rw [replAux_succ_cons, replAux_succ_cons]
        by_cases hsw : startsWithCp (a :: rest) pat
        · rw [if_pos hsw, if_pos hsw]
          have hlen : (List.drop (pat.length - 1) rest).length ≤ rest.length :=
            by simp [List.length_drop]
          rw [ih f (by omega) _ (by omega),
            ih rest.length (by omega) _ (by omega)]
        · rw [if_neg hsw, if_neg hsw]
          rw [ih f (by omega) rest (by omega),
            ih rest.length (by omega) rest (by omega)]

theorem replAux_no_head {p : Nat} {ps : List Nat} :
    ∀ (fuel : Nat) (s : List Nat), (∀ x ∈ s, x ≠ p) →
      replAux (p :: ps) fuel s = s := by
  intro fuel
  induction fuel with
  | zero => intro s _; exact replAux_zero _ s
  | succ f ih =>
    intro s hall
    cases s with
    | nil => rfl
    | cons a rest =>
      rw [replAux_succ_cons]
      have hne : (a == p) = false := beqn_false (hall a (List.mem_cons_self a rest))
      have hsw : startsWithCp (a :: rest) (p :: ps) = false := by
        show (a == p && startsWithCp rest ps) = false
        rw [hne, Bool.false_and]
      rw [hsw]
      simp only [Bool.false_eq_true, if_false]
      rw [ih rest (fun x hx => hall x (List.mem_cons_of_mem a hx))]

theorem replAux_sep {pat tail : List Nat} (hpat : ∀ y ∈ pat, 97 ≤ y)
    (hpne : pat ≠ []) (htail : ∀ x ∈ tail, x < 97) :
    ∀ (fuel : Nat) (conc : List Nat), conc.length + tail.length ≤ fuel →
      replAux pat fuel (conc ++ tail) = replAux pat fuel conc ++ tail := by
  intro fuel
  induction fuel using Nat.strong_induction_on with
  | _ fuel ih =>
    intro conc hlen
    cases conc with
    | nil =>
      rcases pat with _ | ⟨p, ps⟩
      · exact absurd rfl hpne
      · simp only [List.nil_append]
        rw [replAux_nil]
        rw [replAux_no_head fuel tail
          (fun x hx => by
            have := htail x hx
            have := hpat p (List.mem_cons_self p ps)
            omega)]
        rfl
    | cons c cs =>
      cases fuel with
      | zero => simp at hlen
      | succ f =>
        simp only [List.cons_append]
        rw [replAux_succ_cons, replAux_succ_cons]
        have hsw := startsWithCp_append_sep hpat htail (c :: cs)
        rw [List.cons_append] at hsw
        rw [hsw]
        by_cases hstart : startsWithCp (c :: cs) pat
        · rw [if_pos hstart, if_pos hstart]
          have hple : pat.length ≤ cs.length + 1 :=
            startsWithCp_length_le hstart
          have hdrop : List.drop (pat.length - 1) (cs ++ tail)
              = List.drop (pat.length - 1) cs ++ tail := by
            rw [List.drop_append_of_le_length (by omega)]
          rw [hdrop]
          rw [ih f (by omega) _ (by
            simp only [List.length_drop, List.length_cons] at hlen ⊢
            omega)]
        · rw [if_neg hstart, if_neg hstart]
          simp only [List.length_cons] at hlen
          rw [ih f (by omega) cs (by omega)]
          rfl

theorem replaceCp_append_sep {pat tail : List Nat} (hpat : ∀ y ∈ pat, 97 ≤ y)
    (hpne : pat ≠ []) (htail : ∀ x ∈ tail, x < 97) (conc : List Nat) :
    replaceCp (conc ++ tail) pat = replaceCp conc pat ++ tail := by
  have hpe : pat.isEmpty = false := by
    cases pat with
    | nil => exact absurd rfl hpne
    | cons a r => rfl
  rw [replaceCp, replaceCp, hpe]
  simp only [Bool.false_eq_true, if_false]
  rw [replAux_sep hpat hpne htail _ _ (by simp)]
  rw [replAux_fuel (conc ++ tail).length conc (by simp)]

theorem replAux_skip_front {p : Nat} {ps tail : List Nat} :
    ∀ (conc : List Nat) (fuel : Nat),
      conc.length + tail.length ≤ fuel → (∀ x ∈ conc, x ≠ p) →
      replAux (p :: ps) fuel (conc ++ tail)
        = conc ++ replAux (p :: ps) fuel tail := by
  intro conc
  induction conc with
  | nil => intro fuel _ _; simp
  | cons c cs ih =>
    intro fuel hlen hall
    cases fuel with
    | zero => simp at hlen
    | succ f =>
      simp only [List.cons_append]
      rw [replAux_succ_cons]
      have hne : (c == p) = false :=
        beqn_false (hall c (List.mem_cons_self c cs))
      have hsw : startsWithCp (c :: (cs ++ tail)) (p :: ps) = false := by
        show (c == p && startsWithCp (cs ++ tail) ps) = false
        rw [hne, Bool.false_and]
      rw [hsw]
      simp only [Bool.false_eq_true, if_false]
      simp only [List.length_cons] at hlen
      rw [ih f (by omega) (fun x hx => hall x (List.mem_cons_of_mem c hx))]
      have h1 : replAux (p :: ps) f tail = replAux (p :: ps) (f + 1) tail := by
        rw [replAux_fuel f tail (by omega),
          replAux_fuel (f + 1) tail (by omega)]
      rw [h1]

theorem replaceCp_tail_only {p : Nat} {ps conc tail : List Nat}
    (hall : ∀ x ∈ conc, x ≠ p) :
    replaceCp (conc ++ tail) (p :: ps) = conc ++ replaceCp tail (p :: ps) := by
  rw [replaceCp, replaceCp]
  simp only [List.isEmpty_cons, Bool.false_eq_true, if_false]
  rw [replAux_skip_front conc (conc ++ tail).length (by simp) hall]
  rw [replAux_fuel (conc ++ tail).length tail (by simp)]

theorem replaceCp_self {pat : List Nat} (h : pat ≠ []) :
    replaceCp pat pat = [] := by
  rcases pat with _ | ⟨p, ps⟩
  · exact absurd rfl h
  · rw [replaceCp]
    simp only [List.isEmpty_cons, Bool.false_eq_true, if_false]
    simp only [List.length_cons]
    rw [replAux_succ_cons, startsWithCp_refl]
    simp only [if_true]
    have : List.drop ((p :: ps).length - 1) ps = [] := by
      simp [List.drop_eq_nil_iff]
    rw [this, replAux_nil]

theorem timeTok_eq {h m : Nat} (hh : h < 100) (hm : m < 100) :
    timeTok h m = [48 + h / 10, 48 + h % 10, 58, 48 + m / 10, 48 + m % 10] := by
  rw [timeTok, pad2c_eq hh, pad2c_eq hm]
  rfl

theorem timeTok_mem_le58 {h m : Nat} (hh : h < 100) (hm : m < 100) :
    ∀ x ∈ timeTok h m, x ≤ 58 := by
  rw [timeTok_eq hh hm]
  intro x hx
  rcases List.mem_cons.mp hx with hx | hx
  · omega
  rcases List.mem_cons.mp hx with hx | hx
  · omega
  rcases List.mem_cons.mp hx with hx | hx
  · omega
  rcases List.mem_cons.mp hx with hx | hx
  · omega
  rcases List.mem_cons.mp hx with hx | hx
  · omega
  · cases hx

theorem natCp_mem_lt97 {d : Nat} : ∀ x ∈ natCp d, x < 97 := by
  intro x hx
  have := natCp_mem x hx
  omega

theorem hmAt_not_digit {a : Nat} (ha : isDigitCp a = false) (l : List Nat) :
    hmAt (a :: l) = none := by
  rcases l with _ | ⟨b, _ | ⟨c, _ | ⟨d, _ | ⟨e, rest⟩⟩⟩⟩
  · rfl
  · rfl
  · rfl
  · rfl
  · rw [hmAt, ha]
    simp

theorem findHMAux_cons (a : Nat) (rest : List Nat) :
    findHMAux (a :: rest) =
      match hmAt (a :: rest) with
      | some r => some r
      | none => findHMAux rest := rfl

theorem findHMAux_skip {conc : List Nat}
    (h : ∀ x ∈ conc, isDigitCp x = false) (rest : List Nat) :
    findHMAux (conc ++ rest) = findHMAux rest := by
  induction conc with
  | nil => rfl
  | cons c cs ih =>
    rw [List.cons_append, findHMAux_cons,
      hmAt_not_digit (h c (List.mem_cons_self c cs))]
    exact ih (fun x hx => h x (List.mem_cons_of_mem c hx))

theorem hmAt_timeTok {h m : Nat} (hh : h < 100) (hm : m < 100)
    (rest : List Nat) :
    hmAt (timeTok h m ++ rest) = some (h, m) := by
  rw [timeTok_eq hh hm]
  have e1 : isDigitCp (48 + h / 10) = true := isDigitCp_true (by omega) (by omega)
  have e2 : isDigitCp (48 + h % 10) = true := isDigitCp_true (by omega) (by omega)
  have e3 : isDigitCp (48 + m / 10) = true := isDigitCp_true (by omega) (by omega)
  have e4 : isDigitCp (48 + m % 10) = true := isDigitCp_true (by omega) (by omega)
  simp only [List.cons_append, List.nil_append, hmAt, e1, e2, e3, e4]
  simp only [beq_self_eq_true, Bool.and_true, Bool.true_and, if_true]
  simp only [Option.some.injEq, Prod.mk.injEq]
  constructor <;> omega

theorem findHMAux_timeTok {h m : Nat} (hh : h < 100) (hm : m < 100)
    (rest : List Nat) :
    findHMAux (timeTok h m ++ rest) = some (h, m) := by
  have h5 : ∃ a l, timeTok h m ++ rest = a :: l := by
    rw [timeTok_eq hh hm]
    exact ⟨_, _, rfl⟩
  rcases h5 with ⟨a, l, hal⟩
  rw [hal, findHMAux_cons, ← hal, hmAt_timeTok hh hm rest]

theorem findHMAux_digits_space_time {d h m : Nat} (hd : d < 100)
    (hh : h < 100) (hm : m < 100) :
    findHMAux (natCp d ++ 32 :: timeTok h m) = some (h, m) := by
  have htt := timeTok_eq hh hm
  by_cases h10 : d < 10
  · rw [natCp_lt10 h10, htt]
    simp only [List.cons_append, List.nil_append]
    rw [findHMAux_cons]
    rw [show hmAt ((48 + d) :: 32 :: (48 + h / 10) :: (48 + h % 10) :: 58
        :: (48 + m / 10) :: (48 + m % 10) :: []) = none from by
      rw [hmAt]
      simp [isDigitCp]]
    rw [findHMAux_cons]
    rw [show hmAt (32 :: (48 + h / 10) :: (48 + h % 10) :: 58 :: (48 + m / 10)
        :: (48 + m % 10) :: []) = none from hmAt_not_digit (by simp [isDigitCp]) _]
    have := findHMAux_timeTok hh hm ([] : List Nat)
    rw [timeTok_eq hh hm] at this
    simpa using this
  · rw [natCp_lt100 (by omega) hd, htt]
    simp only [List.cons_append, List.nil_append]
    rw [findHMAux_cons]
    rw [show hmAt ((48 + d / 10) :: (48 + d % 10) :: 32 :: (48 + h / 10)
        :: (48 + h % 10) :: 58 :: (48 + m / 10) :: (48 + m % 10) :: []) = none from by
      rw [hmAt]
      simp [isDigitCp]]
    rw [findHMAux_cons]
    rw [show hmAt ((48 + d % 10) :: 32 :: (48 + h / 10) :: (48 + h % 10) :: 58
        :: (48 + m / 10) :: (48 + m % 10) :: []) = none from by
      rw [hmAt]
      simp [isDigitCp]]
    rw [findHMAux_cons]
    rw [show hmAt (32 :: (48 + h / 10) :: (48 + h % 10) :: 58 :: (48 + m / 10)
        :: (48 + m % 10) :: []) = none from hmAt_not_digit (by simp [isDigitCp]) _]
    have := findHMAux_timeTok hh hm ([] : List Nat)
    rw [timeTok_eq hh hm] at this
    simpa using this

theorem dropWhile_all_false {p : Nat → Bool} :
    ∀ {l : List Nat}, (∀ x ∈ l, p x = false) → l.dropWhile p = l := by
  intro l h
  cases l with
  | nil => rfl
  | cons a rest =>
    rw [List.dropWhile_cons_of_neg]
    rw [h a (List.mem_cons_self a rest)]
    simp

theorem isWsCp_digit_false {c : Nat} (h1 : 48 ≤ c) (h2 : c ≤ 57) :
    isWsCp c = false := by
  simp [isWsCp]
  omega

theorem trim_space_wrap {D : List Nat} (hne : D ≠ [])
    (hdig : ∀ x ∈ D, 48 ≤ x ∧ x ≤ 57) :
    trimCp (32 :: (D ++ [32])) = D := by
  rcases D with _ | ⟨d0, ds⟩
  · exact absurd rfl hne
  · rw [trimCp]
    rw [List.dropWhile_cons_of_pos (by decide)]
    have hd0 := hdig d0 (List.mem_cons_self d0 ds)
    have h1 : List.dropWhile isWsCp (d0 :: (ds ++ [32])) = d0 :: (ds ++ [32]) :=
      List.dropWhile_cons_of_neg (by
        rw [isWsCp_digit_false hd0.1 hd0.2]
        simp)
    rw [List.cons_append, h1]
    have hrev : (d0 :: (ds ++ [32])).reverse = 32 :: (d0 :: ds).reverse := by
      rw [show d0 :: (ds ++ [32]) = (d0 :: ds) ++ [32] from rfl,
        List.reverse_append]
      rfl
    rw [hrev]
    rw [List.dropWhile_cons_of_pos (by decide)]
    rcases hrd : (d0 :: ds).reverse with _ | ⟨z, zs⟩
    · have : (d0 :: ds) = ([] : List Nat) := by
        have := congrArg List.reverse hrd
        simpa using this
      cases this
    · have hz : z ∈ d0 :: ds := by
        have hz0 : z ∈ (d0 :: ds).reverse := by
          rw [hrd]
          exact List.mem_cons_self z zs
        exact List.mem_reverse.mp hz0
      have hzd := hdig z hz
      have h2 : List.dropWhile isWsCp (z :: zs) = z :: zs :=
        List.dropWhile_cons_of_neg (by
          rw [isWsCp_digit_false hzd.1 hzd.2]
          simp)
      rw [h2, ← hrd]
      simp

theorem digitsVal_natCp {d : Nat} (hd : d < 100) :
    digitsVal (natCp d) = some d := by
  by_cases h10 : d < 10
  · rw [natCp_lt10 h10, digitsVal]
    simp only [List.isEmpty_cons, Bool.false_eq_true, if_false]
    rw [show ([48 + d] : List Nat).all isDigitCp = true from by
      simp [List.all_cons, isDigitCp_true (by omega) (show 48 + d ≤ 57 by omega)]]
    simp only [if_true, List.foldl_cons, List.foldl_nil, Option.some.injEq]
    omega
  · rw [natCp_lt100 (by omega) hd, digitsVal]
    simp only [List.isEmpty_cons, Bool.false_eq_true, if_false]
    rw [show ([48 + d / 10, 48 + d % 10] : List Nat).all isDigitCp = true from by
      simp [List.all_cons,
        isDigitCp_true (show 48 ≤ 48 + d / 10 by omega) (show 48 + d / 10 ≤ 57 by omega),
        isDigitCp_true (show 48 ≤ 48 + d % 10 by omega) (show 48 + d % 10 ≤ 57 by omega)]]
    simp only [if_true, List.foldl_cons, List.foldl_nil, Option.some.injEq]
    omega

theorem parseI8_natCp {d : Nat} (hd : d < 100) :
    parseI8 (natCp d) = some (d : Int) := by
  have hdv := digitsVal_natCp hd
  by_cases h10 : d < 10
  · rw [natCp_lt10 h10] at hdv ⊢
    rw [parseI8, beqn_false (show 48 + d ≠ 45 by omega),
      beqn_false (show 48 + d ≠ 43 by omega)]
    simp only [Bool.false_eq_true, if_false]
    rw [hdv]
    simp only [Option.bind]
    rw [if_pos (by omega)]
  · rw [natCp_lt100 (by omega) hd] at hdv ⊢
    rw [parseI8, beqn_false (show 48 + d / 10 ≠ 45 by omega),
      beqn_false (show 48 + d / 10 ≠ 43 by omega)]
    simp only [Bool.false_eq_true, if_false]
    rw [hdv]
    simp only [Option.bind]
    rw [if_pos (by omega)]

theorem toLowerCp_eq_self {c : Nat} (h : c < 65 ∨ 90 < c) :
    toLowerCp c = c := by
  rw [toLowerCp, if_neg]
  simp
  omega

theorem lowerCp_eq_self {s : List Nat} (h : ∀ c ∈ s, c < 65 ∨ 90 < c) :
    lowerCp s = s := by
  induction s with
  | nil => rfl
  | cons a rest ih =>
    rw [lowerCp, List.map_cons,
      toLowerCp_eq_self (h a (List.mem_cons_self a rest))]
    have := ih (fun c hc => h c (List.mem_cons_of_mem a hc))
    rw [lowerCp] at this
    rw [this]

theorem toLowerCp_idem (c : Nat) : toLowerCp (toLowerCp c) = toLowerCp c := by
  by_cases h : 65 ≤ c ∧ c ≤ 90
  · have h1 : toLowerCp c = c + 32 := by
      rw [toLowerCp, if_pos (by simp; omega)]
    rw [h1]
    exact toLowerCp_eq_self (by omega)
  · have h1 : toLowerCp c = c := toLowerCp_eq_self (by omega)
    rw [h1, h1]

theorem lowerCp_idem (s : List Nat) : lowerCp (lowerCp s) = lowerCp s := by
  unfold lowerCp
  rw [List.map_map]
  exact List.map_congr_left (fun c _ => by simp [Function.comp, toLowerCp_idem])

/-- The cron string `0 MM HH * * * *` the daily grammar emits. -/
def cronDailyStr (h m : Nat) : List Nat :=
  joinSp [[48], natCp m, natCp h, [42], [42], [42], [42]]

/-- The cron string `0 MM HH D * * *` the monthly grammar emits. -/
def cronMonthlyStr (d h m : Nat) : List Nat :=
  joinSp [[48], natCp m, natCp h, natCp d, [42], [42], [42]]

/-- The cron string `0 MM HH * * W *` the weekly grammar emits. -/
def cronWeeklyStr (w h m : Nat) : List Nat :=
  joinSp [[48], natCp m, natCp h, [42], [42], natCp w, [42]]

theorem weekdayTable_letters :
    ∀ t ∈ weekdayTable, (∀ y ∈ t.1, 97 ≤ y) ∧ (∀ y ∈ t.2.1, 97 ≤ y) := by
  decide

theorem parseDaily_not_contains {input : List Nat}
    (h : containsCp input (cp "daily") = false) : parseDaily input = none := by
  rw [parseDaily, h]
  simp

theorem parseMonthly_not_contains {input : List Nat}
    (h : containsCp input (cp "monthly") = false) : parseMonthly input = none := by
  rw [parseMonthly, h]
  simp

theorem weeklyGo_all_skip :
    ∀ (table : List (List Nat × List Nat × Nat)) (conc tail : List Nat),
      (∀ x ∈ tail, x < 97) →
      (∀ t ∈ table, (∀ y ∈ t.1, 97 ≤ y) ∧ (∀ y ∈ t.2.1, 97 ≤ y)) →
      (∀ t ∈ table, containsCp conc t.1 = false ∧ containsCp conc t.2.1 = false) →
      weeklyGo table (conc ++ tail) = none := by
  intro table
  induction table with
  | nil => intro conc tail _ _ _; rfl
  | cons t rest ih =>
    intro conc tail htail hlet hfalse
    rcases t with ⟨short, long, w⟩
    have hl := hlet _ (List.mem_cons_self _ rest)
    have hf := hfalse _ (List.mem_cons_self _ rest)
    rw [weeklyGo]
    simp only []
    rw [containsCp_append_sep hl.1 htail, containsCp_append_sep hl.2 htail,
      hf.1, hf.2]
    simp only [Bool.or_false, Bool.false_eq_true, if_false]
    exact ih conc tail htail
      (fun t ht => hlet t (List.mem_cons_of_mem _ ht))
      (fun t ht => hfalse t (List.mem_cons_of_mem _ ht))

theorem getHM_entry {h m : Nat} (hh : h < 100) (hm : m < 100)
    {s : List Nat} (hfind : findHMAux s = some (h, m)) :
    getHoursAndMinutes s = if h < 24 ∧ m < 60 then some (h, m) else none := by
  rw [getHoursAndMinutes, hfind]
  by_cases hv : h < 24 ∧ m < 60
  · have hcond : (decide (h < 24) && decide (m < 60)) = true := by
      simp only [Bool.and_eq_true, decide_eq_true_eq]
      omega
    rw [if_pos hv]
    show (if (decide (h < 24) && decide (m < 60)) = true then some (h, m) else none)
        = some (h, m)
    rw [hcond]
    simp
  · have hcond : (decide (h < 24) && decide (m < 60)) = false := by
      rw [Bool.eq_false_iff]
      intro hc
      simp only [Bool.and_eq_true, decide_eq_true_eq] at hc
      exact hv hc
    rw [if_neg hv]
    show (if (decide (h < 24) && decide (m < 60)) = true then some (h, m) else none)
        = none
    rw [hcond]
    simp

theorem timeTok_ne_nil {h m : Nat} (hh : h < 100) (hm : m < 100) :
    timeTok h m ≠ [] := by
  rw [timeTok_eq hh hm]
  simp

theorem replace_spaceTime {h m : Nat} (hh : h < 100) (hm : m < 100) :
    replaceCp (32 :: timeTok h m) (timeTok h m) = [32] := by
  have h32 : ∀ x ∈ ([32] : List Nat), x ≠ 48 + h / 10 := by
    intro x hx
    rcases List.mem_cons.mp hx with hx | hx
    · omega
    · cases hx
  have hT := timeTok_eq hh hm
  have step : replaceCp (([32] : List Nat) ++ timeTok h m) (timeTok h m)
      = [32] ++ replaceCp (timeTok h m) (timeTok h m) := by
    rw [hT]
    exact replaceCp_tail_only h32
  rw [show (32 :: timeTok h m) = ([32] : List Nat) ++ timeTok h m from rfl, step,
    replaceCp_self (timeTok_ne_nil hh hm)]
  rfl

theorem parseDaily_canonical {h m : Nat} (hh : h < 100) (hm : m < 100) :
    parseDaily (cp "daily " ++ timeTok h m)
      = if h < 24 ∧ m < 60 then some (cronDailyStr h m) else none := by
  have hT97 : ∀ x ∈ timeTok h m, x < 97 := by
    intro x hx
    have := timeTok_mem_le58 hh hm x hx
    omega
  have hdl : ∀ y ∈ cp "daily", 97 ≤ y := by decide
  have hcontains : containsCp (cp "daily " ++ timeTok h m) (cp "daily") = true := by
    rw [containsCp_append_sep hdl hT97]
    decide
  have hrep : replaceCp (cp "daily " ++ timeTok h m) (cp "daily")
      = 32 :: timeTok h m := by
    rw [replaceCp_append_sep hdl (by decide) hT97]
    rw [show replaceCp (cp "daily ") (cp "daily") = [32] from by decide]
    rfl
  have hfind : findHMAux (32 :: timeTok h m) = some (h, m) := by
    rw [show (32 :: timeTok h m) = ([32] : List Nat) ++ timeTok h m from rfl,
      findHMAux_skip (by decide) (timeTok h m),
      show timeTok h m = timeTok h m ++ [] from by simp,
      findHMAux_timeTok hh hm]
  rw [parseDaily, hcontains]
  simp only [if_true]
  rw [hrep, getHM_entry hh hm hfind]
  by_cases hv : h < 24 ∧ m < 60
  · rw [if_pos hv, if_pos hv]
    simp only []
    rw [replace_spaceTime hh hm]
    rw [show trimCp [32] = [] from by decide]
    rfl
  · rw [if_neg hv, if_neg hv]

theorem parseWhen_dIn {h m : Nat} (hh : h < 100) (hm : m < 100) :
    parseWhen (cp "daily " ++ timeTok h m)
      = if h < 24 ∧ m < 60 then some (cronDailyStr h m) else none := by
  have hT65 : ∀ x ∈ timeTok h m, x ≤ 58 := timeTok_mem_le58 hh hm
  have hT97 : ∀ x ∈ timeTok h m, x < 97 := by
    intro x hx
    have := hT65 x hx
    omega
  have hlow : lowerCp (cp "daily " ++ timeTok h m) = cp "daily " ++ timeTok h m := by
    apply lowerCp_eq_self
    intro c hc
    rcases List.mem_append.mp hc with hc | hc
    · have : ∀ c ∈ cp "daily ", c < 65 ∨ 90 < c := by decide
      exact this c hc
    · have := hT65 c hc
      omega
  rw [parseWhen]
  rw [hlow, parseDaily_canonical hh hm]
  by_cases hv : h < 24 ∧ m < 60
  · rw [if_pos hv]
  · rw [if_neg hv]
    have hmon : parseMonthly (cp "daily " ++ timeTok h m) = none := by
      apply parseMonthly_not_contains
      rw [containsCp_append_sep (by decide) hT97]
      decide
    rw [hmon]
    rw [parseWeekly, weeklyGo_all_skip weekdayTable (cp "daily ") (timeTok h m)
      hT97 weekdayTable_letters (by decide)]

theorem natCp_ne_nil {d : Nat} (hd : d < 100) : natCp d ≠ [] := by
  by_cases h10 : d < 10
  · rw [natCp_lt10 h10]
    simp
  · rw [natCp_lt100 (by omega) hd]
    simp

theorem replace_time_core {d h m : Nat} (hd : d < 100) (hh : h < 100)
    (hm : m < 100) :
    replaceCp ((natCp d ++ [32]) ++ timeTok h m) (timeTok h m)
      = natCp d ++ [32] := by
  have hT := timeTok_eq hh hm
  have hb1 : ((32 : Nat) == 48 + h / 10) = false := beqn_false (by omega)
  have hb2 : ((32 : Nat) == 48 + h % 10) = false := beqn_false (by omega)
  by_cases h10 : d < 10
  · rw [natCp_lt10 h10, hT]
    show replaceCp ((48 + d) :: 32 :: (48 + h / 10) :: (48 + h % 10) :: 58
      :: (48 + m / 10) :: (48 + m % 10) :: []) ((48 + h / 10) :: (48 + h % 10)
      :: 58 :: (48 + m / 10) :: (48 + m % 10) :: []) = (48 + d) :: 32 :: []
    rw [replaceCp]
    simp only [List.isEmpty_cons, Bool.false_eq_true, if_false, List.length_cons,
      List.length_nil]
    rw [replAux_succ_cons]
    rw [show startsWithCp ((48 + d) :: 32 :: (48 + h / 10) :: (48 + h % 10) :: 58
        :: (48 + m / 10) :: (48 + m % 10) :: []) ((48 + h / 10) :: (48 + h % 10)
        :: 58 :: (48 + m / 10) :: (48 + m % 10) :: []) = false from by
      show ((48 + d == 48 + h / 10) && ((32 == 48 + h % 10) && _)) = false
      rw [hb2]
      simp]
    simp only [Bool.false_eq_true, if_false]
    rw [replAux_succ_cons]
    rw [show startsWithCp (32 :: (48 + h / 10) :: (48 + h % 10) :: 58
        :: (48 + m / 10) :: (48 + m % 10) :: []) ((48 + h / 10) :: (48 + h % 10)
        :: 58 :: (48 + m / 10) :: (48 + m % 10) :: []) = false from by
      show ((32 == 48 + h / 10) && _) = false
      rw [hb1]
      simp]
    simp only [Bool.false_eq_true, if_false]
    rw [replAux_succ_cons, startsWithCp_refl]
    simp only [if_true, List.length_cons, List.length_nil]
    rw [show List.drop ((4 : Nat) + 1 - 1) ((48 + h % 10) :: 58 :: (48 + m / 10)
        :: (48 + m % 10) :: []) = [] from rfl]
    rw [replAux_nil]
  · rw [natCp_lt100 (by omega) hd, hT]
    show replaceCp ((48 + d / 10) :: (48 + d % 10) :: 32 :: (48 + h / 10)
      :: (48 + h % 10) :: 58 :: (48 + m / 10) :: (48 + m % 10) :: [])
      ((48 + h / 10) :: (48 + h % 10) :: 58 :: (48 + m / 10) :: (48 + m % 10)
      :: []) = (48 + d / 10) :: (48 + d % 10) :: 32 :: []
    rw [replaceCp]
    simp only [List.isEmpty_cons, Bool.false_eq_true, if_false, List.length_cons,
      List.length_nil]
    rw [replAux_succ_cons]
    rw [show startsWithCp ((48 + d / 10) :: (48 + d % 10) :: 32 :: (48 + h / 10)
        :: (48 + h % 10) :: 58 :: (48 + m / 10) :: (48 + m % 10) :: [])
        ((48 + h / 10) :: (48 + h % 10) :: 58 :: (48 + m / 10) :: (48 + m % 10)
        :: []) = false from by
      show ((48 + d / 10 == 48 + h / 10) && ((48 + d % 10 == 48 + h % 10)
        && ((32 == 58) && _))) = false
      simp]
    simp only [Bool.false_eq_true, if_false]
    rw [replAux_succ_cons]
    rw [show startsWithCp ((48 + d % 10) :: 32 :: (48 + h / 10) :: (48 + h % 10)
        :: 58 :: (48 + m / 10) :: (48 + m % 10) :: []) ((48 + h / 10)
        :: (48 + h % 10) :: 58 :: (48 + m / 10) :: (48 + m % 10) :: [])
        = false from by
      show ((48 + d % 10 == 48 + h / 10) && ((32 == 48 + h % 10) && _)) = false
      rw [hb2]
      simp]
    simp only [Bool.false_eq_true, if_false]
    rw [replAux_succ_cons]
    rw [show startsWithCp (32 :: (48 + h / 10) :: (48 + h % 10) :: 58
        :: (48 + m / 10) :: (48 + m % 10) :: []) ((48 + h / 10) :: (48 + h % 10)
        :: 58 :: (48 + m / 10) :: (48 + m % 10) :: []) = false from by
      show ((32 == 48 + h / 10) && _) = false
      rw [hb1]
      simp]
    simp only [Bool.false_eq_true, if_false]
    rw [replAux_succ_cons, startsWithCp_refl]
    simp only [if_true, List.length_cons, List.length_nil]
    rw [show List.drop ((4 : Nat) + 1 - 1) ((48 + h % 10) :: 58 :: (48 + m / 10)
        :: (48 + m % 10) :: []) = [] from rfl]
    rw [replAux_nil]

theorem trimCp_thly {d : Nat} (hd : d < 100) :
    trimCp (cp "thly " ++ (natCp d ++ [32])) = cp "thly " ++ natCp d := by
  have hws : isWsCp 116 = false := by decide
  by_cases h10 : d < 10
  · rw [natCp_lt10 h10]
    show trimCp (116 :: 104 :: 108 :: 121 :: 32 :: (48 + d) :: 32 :: [])
      = 116 :: 104 :: 108 :: 121 :: 32 :: (48 + d) :: []
    rw [trimCp]
    rw [List.dropWhile_cons_of_neg (by rw [hws]; simp)]
    rw [show (116 :: 104 :: 108 :: 121 :: 32 :: (48 + d) :: 32 :: []).reverse
      = 32 :: (48 + d) :: 32 :: 121 :: 108 :: 104 :: 116 :: [] from by
      simp]
    rw [List.dropWhile_cons_of_pos (by decide)]
    rw [List.dropWhile_cons_of_neg (by
      rw [isWsCp_digit_false (by omega) (show 48 + d ≤ 57 by omega)]
      simp)]
    simp
  · rw [natCp_lt100 (by omega) hd]
    show trimCp (116 :: 104 :: 108 :: 121 :: 32 :: (48 + d / 10)
        :: (48 + d % 10) :: 32 :: [])
      = 116 :: 104 :: 108 :: 121 :: 32 :: (48 + d / 10) :: (48 + d % 10) :: []
    rw [trimCp]
    rw [List.dropWhile_cons_of_neg (by rw [hws]; simp)]
    rw [show (116 :: 104 :: 108 :: 121 :: 32 :: (48 + d / 10) :: (48 + d % 10)
        :: 32 :: []).reverse
      = 32 :: (48 + d % 10) :: (48 + d / 10) :: 32 :: 121 :: 108 :: 104
        :: 116 :: [] from by simp]
    rw [List.dropWhile_cons_of_pos (by decide)]
    rw [List.dropWhile_cons_of_neg (by
      rw [isWsCp_digit_false (show 48 ≤ 48 + d % 10 by omega)
        (show 48 + d % 10 ≤ 57 by omega)]
      simp)]
    simp

theorem monthly_tail_lt97 {d h m : Nat} (hd : d < 100) (hh : h < 100)
    (hm : m < 100) : ∀ x ∈ natCp d ++ 32 :: timeTok h m, x < 97 := by
  intro x hx
  rcases List.mem_append.mp hx with hx | hx
  · have := natCp_mem x hx
    omega
  · rcases List.mem_cons.mp hx with hx | hx
    · omega
    · have := timeTok_mem_le58 hh hm x hx
      omega

theorem replace_time_monthly {d h m : Nat} (hd : d < 100) (hh : h < 100)
    (hm : m < 100) :
    replaceCp (32 :: (natCp d ++ 32 :: timeTok h m)) (timeTok h m)
      = 32 :: (natCp d ++ [32]) := by
  have hT := timeTok_eq hh hm
  have h32 : ∀ x ∈ ([32] : List Nat), x ≠ 48 + h / 10 := by
    intro x hx
    rcases List.mem_cons.mp hx with hx | hx
    · omega
    · cases hx
  rw [hT]
  rw [show 32 :: (natCp d ++ 32 :: ((48 + h / 10) :: (48 + h % 10) :: 58
        :: (48 + m / 10) :: (48 + m % 10) :: []))
      = ([32] : List Nat) ++ ((natCp d ++ [32]) ++ ((48 + h / 10) :: (48 + h % 10)
        :: 58 :: (48 + m / 10) :: (48 + m % 10) :: [])) from by simp]
  rw [replaceCp_tail_only h32]
  rw [← hT]
  rw [replace_time_core hd hh hm]
  rfl

theorem parseMonthly_mIn {d h m : Nat} (hd : d < 100) (hh : h < 100)
    (hm : m < 100) :
    parseMonthly (cp "monthly " ++ (natCp d ++ 32 :: timeTok h m))
      = if (1 ≤ d ∧ d ≤ 31) ∧ h < 24 ∧ m < 60
        then some (cronMonthlyStr d h m) else none := by
  have htail := monthly_tail_lt97 hd hh hm
  have hml : ∀ y ∈ cp "monthly", 97 ≤ y := by decide
  have hcontains : containsCp (cp "monthly " ++ (natCp d ++ 32 :: timeTok h m))
      (cp "monthly") = true := by
    rw [containsCp_append_sep hml htail]
    decide
  have hrep : replaceCp (cp "monthly " ++ (natCp d ++ 32 :: timeTok h m))
      (cp "monthly") = 32 :: (natCp d ++ 32 :: timeTok h m) := by
    rw [replaceCp_append_sep hml (by decide) htail]
    rw [show replaceCp (cp "monthly ") (cp "monthly") = [32] from by decide]
    rfl
  have hfind : findHMAux (32 :: (natCp d ++ 32 :: timeTok h m)) = some (h, m) := by
    rw [show (32 :: (natCp d ++ 32 :: timeTok h m))
        = ([32] : List Nat) ++ (natCp d ++ 32 :: timeTok h m) from rfl,
      findHMAux_skip (by decide), findHMAux_digits_space_time hd hh hm]
  rw [parseMonthly, hcontains]
  simp only [if_true]
  rw [hrep, getHM_entry hh hm hfind]
  by_cases hv : h < 24 ∧ m < 60
  · rw [if_pos hv]
    simp only []
    rw [replace_time_monthly hd hh hm, trim_space_wrap (natCp_ne_nil hd) natCp_mem,
      parseI8_natCp hd]
    simp only []
    by_cases hrange : 1 ≤ d ∧ d ≤ 31
    · rw [if_pos (by
        constructor
        · exact_mod_cast hrange.1
        · have : d < 32 := by omega
          exact_mod_cast this)]
      rw [if_pos ⟨hrange, hv⟩]
      rw [cronMonthlyStr]
      simp
    · rw [if_neg (by
        intro hc
        apply hrange
        constructor
        · exact_mod_cast hc.1
        · have : (d : Int) < 32 := hc.2
          omega)]
      rw [if_neg (by
        intro hc
        exact hrange hc.1)]
  · rw [if_neg hv, if_neg (by intro hc; exact hv hc.2)]

theorem weekly_leftover_ne (d : Nat) :
    ((cp "thly " ++ natCp d).isEmpty || (cp "thly " ++ natCp d == cp "weekly"))
      = false := by
  have e1 : cp "thly " = [116, 104, 108, 121, 32] := by decide
  have e2 : cp "weekly" = [119, 101, 101, 107, 108, 121] := by decide
  rw [e1, e2]
  have hne : (([116, 104, 108, 121, 32] : List Nat) ++ natCp d
      ≠ [119, 101, 101, 107, 108, 121]) := by
    intro heq
    simp only [List.cons_append, List.cons.injEq] at heq
    omega
  rw [beq_eq_false_iff_ne.mpr hne]
  simp

theorem parseWeekly_mIn {d h m : Nat} (hd : d < 100) (hh : h < 100)
    (hm : m < 100) :
    parseWeekly (cp "monthly " ++ (natCp d ++ 32 :: timeTok h m)) = none := by
  have htail := monthly_tail_lt97 hd hh hm
  have hshort : containsCp (cp "monthly " ++ (natCp d ++ 32 :: timeTok h m))
      (cp "mon") = true := by
    rw [containsCp_append_sep (by decide) htail]
    decide
  have hlong : containsCp (cp "monthly " ++ (natCp d ++ 32 :: timeTok h m))
      (cp "monday") = false := by
    rw [containsCp_append_sep (by decide) htail]
    decide
  have hrep : replaceCp (cp "monthly " ++ (natCp d ++ 32 :: timeTok h m))
      (cp "mon") = cp "thly " ++ (natCp d ++ 32 :: timeTok h m) := by
    rw [replaceCp_append_sep (by decide) (by decide) htail]
    rw [show replaceCp (cp "monthly ") (cp "mon") = cp "thly " from by decide]
  have hfind : findHMAux (cp "thly " ++ (natCp d ++ 32 :: timeTok h m))
      = some (h, m) := by
    rw [findHMAux_skip (by decide), findHMAux_digits_space_time hd hh hm]
  rw [parseWeekly]
  rw [show weekdayTable = (cp "mon", cp "monday", 1) ::
    [(cp "tue", cp "tuesday", 2), (cp "wed", cp "wednesday", 3),
     (cp "thu", cp "thursday", 4), (cp "fri", cp "friday", 5),
     (cp "sat", cp "saturday", 6), (cp "sun", cp "sunday", 7)] from rfl]
  rw [weeklyGo]
  simp only []
  rw [hshort, hlong]
  simp only [Bool.true_or, if_true, Bool.false_eq_true, if_false]
  rw [hrep, getHM_entry hh hm hfind]
  by_cases hv : h < 24 ∧ m < 60
  · rw [if_pos hv]
    simp only []
    have hT := timeTok_eq hh hm
    have hletters : ∀ x ∈ cp "thly ", x ≠ 48 + h / 10 := by
      intro x hx
      have hcl : ∀ x ∈ cp "thly ", x < 48 ∨ 57 < x := by decide
      have := hcl x hx
      omega
    rw [show cp "thly " ++ (natCp d ++ 32 :: timeTok h m)
      = cp "thly " ++ ((natCp d ++ [32]) ++ timeTok h m) from by simp]
    rw [hT]
    rw [replaceCp_tail_only hletters]
    rw [← hT]
    rw [replace_time_core hd hh hm]
    rw [show cp "thly " ++ (natCp d ++ [32]) = cp "thly " ++ natCp d ++ [32] from
      by simp]
    rw [show cp "thly " ++ natCp d ++ [32] = cp "thly " ++ (natCp d ++ [32]) from
      by simp]
    rw [trimCp_thly hd, weekly_leftover_ne d]
    simp
  · rw [if_neg hv]

theorem parseWhen_mIn {d h m : Nat} (hd : d < 100) (hh : h < 100)
    (hm : m < 100) :
    parseWhen (cp "monthly " ++ (natCp d ++ 32 :: timeTok h m))
      = if (1 ≤ d ∧ d ≤ 31) ∧ h < 24 ∧ m < 60
        then some (cronMonthlyStr d h m) else none := by
  have htail := monthly_tail_lt97 hd hh hm
  have htail58 : ∀ x ∈ natCp d ++ 32 :: timeTok h m, x ≤ 58 := by
    intro x hx
    rcases List.mem_append.mp hx with hx | hx
    · have := natCp_mem x hx
      omega
    · rcases List.mem_cons.mp hx with hx | hx
      · omega
      · exact timeTok_mem_le58 hh hm x hx
  have hlow : lowerCp (cp "monthly " ++ (natCp d ++ 32 :: timeTok h m))
      = cp "monthly " ++ (natCp d ++ 32 :: timeTok h m) := by
    apply lowerCp_eq_self
    intro c hc
    rcases List.mem_append.mp hc with hc | hc
    · have hcl : ∀ c ∈ cp "monthly ", c < 65 ∨ 90 < c := by decide
      exact hcl c hc
    · have := htail58 c hc
      omega
  have hdaily : parseDaily (cp "monthly " ++ (natCp d ++ 32 :: timeTok h m))
      = none := by
    apply parseDaily_not_contains
    rw [containsCp_append_sep (by decide) htail]
    decide
  rw [parseWhen]
  rw [hlow, hdaily]
  rw [parseMonthly_mIn hd hh hm]
  by_cases hc : (1 ≤ d ∧ d ≤ 31) ∧ h < 24 ∧ m < 60
  · rw [if_pos hc]
  · rw [if_neg hc]
    exact parseWeekly_mIn hd hh hm

theorem weeklyGo_skip_front :
    ∀ (before rest : List (List Nat × List Nat × Nat)) (conc tail : List Nat),
      (∀ x ∈ tail, x < 97) →
      (∀ t ∈ before, (∀ y ∈ t.1, 97 ≤ y) ∧ (∀ y ∈ t.2.1, 97 ≤ y)) →
      (∀ t ∈ before, containsCp conc t.1 = false ∧ containsCp conc t.2.1 = false) →
      weeklyGo (before ++ rest) (conc ++ tail) = weeklyGo rest (conc ++ tail) := by
  intro before
  induction before with
  | nil => intro rest conc tail _ _ _; rfl
  | cons t bs ih =>
    intro rest conc tail htail hlet hfalse
    rcases t with ⟨short, long, w⟩
    have hl := hlet _ (List.mem_cons_self _ bs)
    have hf := hfalse _ (List.mem_cons_self _ bs)
    rw [List.cons_append, weeklyGo]
    simp only []
    rw [containsCp_append_sep hl.1 htail, containsCp_append_sep hl.2 htail,
      hf.1, hf.2]
    simp only [Bool.or_false, Bool.false_eq_true, if_false]
    exact ih rest conc tail htail
      (fun t ht => hlet t (List.mem_cons_of_mem _ ht))
      (fun t ht => hfalse t (List.mem_cons_of_mem _ ht))

theorem weekdayTable_pats :
    ∀ t ∈ weekdayTable,
      ((∀ y ∈ t.1, 97 ≤ y) ∧ t.1 ≠ []) ∧ ((∀ y ∈ t.2.1, 97 ≤ y) ∧ t.2.1 ≠ []) := by
  decide

theorem parseWhen_weekly_shape
    (before after : List (List Nat × List Nat × Nat))
    (short long : List Nat) (w : Nat)
    (conc concRed : List Nat) (h m : Nat)
    (hh : h < 100) (hm : m < 100)
    (htable : weekdayTable = before ++ (short, long, w) :: after)
    (hconcLower : ∀ c ∈ conc, c < 65 ∨ 90 < c)
    (hdaily : containsCp conc (cp "daily") = false)
    (hmonthly : containsCp conc (cp "monthly") = false)
    (hbefore : ∀ t ∈ before,
      containsCp conc t.1 = false ∧ containsCp conc t.2.1 = false)
    (hsl : (containsCp conc short || containsCp conc long) = true)
    (hred : replaceCp conc (if containsCp conc long then long else short)
      = concRed)
    (hnd : ∀ x ∈ concRed, isDigitCp x = false)
    (hcheck : ((trimCp concRed).isEmpty || (trimCp concRed == cp "weekly"))
      = true) :
    parseWhen (conc ++ timeTok h m)
      = if h < 24 ∧ m < 60 then some (cronWeeklyStr w h m) else none := by
  have hT := timeTok_eq hh hm
  have htail97 : ∀ x ∈ timeTok h m, x < 97 := by
    intro x hx
    have := timeTok_mem_le58 hh hm x hx
    omega
  have hentry : (short, long, w) ∈ weekdayTable := by
    rw [htable]
    exact List.mem_append_right before (List.mem_cons_self _ after)
  have hpats := weekdayTable_pats _ hentry
  have hlow : lowerCp (conc ++ timeTok h m) = conc ++ timeTok h m := by
    apply lowerCp_eq_self
    intro c hc
    rcases List.mem_append.mp hc with hc | hc
    · exact hconcLower c hc
    · have := timeTok_mem_le58 hh hm c hc
      omega
  have hdaily2 : parseDaily (conc ++ timeTok h m) = none := by
    apply parseDaily_not_contains
    rw [containsCp_append_sep (by decide) htail97, hdaily]
  have hmonthly2 : parseMonthly (conc ++ timeTok h m) = none := by
    apply parseMonthly_not_contains
    rw [containsCp_append_sep (by decide) htail97, hmonthly]
  rw [parseWhen, hlow, hdaily2, hmonthly2]
  rw [parseWeekly, htable,
    weeklyGo_skip_front before _ conc (timeTok h m) htail97
      (fun t ht => by
        have := weekdayTable_pats t (htable ▸ List.mem_append_left _ ht)
        exact ⟨this.1.1, this.2.1⟩)
      hbefore]
  rw [weeklyGo]
  simp only []
  rw [containsCp_append_sep hpats.1.1 htail97,
    containsCp_append_sep hpats.2.1 htail97, hsl]
  simp only [if_true]
  have hchosen : ∀ x ∈ (if containsCp conc long then long else short), 97 ≤ x := by
    by_cases hcl : containsCp conc long
    · rw [if_pos hcl]
      exact hpats.2.1
    · rw [if_neg hcl]
      exact hpats.1.1
  have hchosenNe : (if containsCp conc long then long else short) ≠ [] := by
    by_cases hcl : containsCp conc long
    · rw [if_pos hcl]
      exact hpats.2.2
    · rw [if_neg hcl]
      exact hpats.1.2
  have hrep : replaceCp (conc ++ timeTok h m)
      (if containsCp conc long then long else short) = concRed ++ timeTok h m := by
    rw [replaceCp_append_sep hchosen hchosenNe htail97, hred]
  rw [hrep]
  have hfind : findHMAux (concRed ++ timeTok h m) = some (h, m) := by
    rw [findHMAux_skip hnd,
      show timeTok h m = timeTok h m ++ [] from by simp,
      findHMAux_timeTok hh hm]
  rw [getHM_entry hh hm hfind]
  by_cases hv : h < 24 ∧ m < 60
  · rw [if_pos hv, if_pos hv]
    simp only []
    have hne : ∀ x ∈ concRed, x ≠ 48 + h / 10 := by
      intro x hx
      have := hnd x hx
      rw [isDigitCp] at this
      simp only [Bool.and_eq_false_iff, decide_eq_false_iff_not] at this
      omega
    rw [hT, replaceCp_tail_only hne, ← hT,
      replaceCp_self (timeTok_ne_nil hh hm)]
    rw [show concRed ++ ([] : List Nat) = concRed from by simp]
    rw [hcheck]
    simp only [if_true]
    rfl
  · rw [if_neg hv, if_neg hv]

theorem parseWhen_weekly_all :
    ∀ short long w, (short, long, w) ∈ weekdayTable →
    ∀ (useLong opt : Bool) (h m : Nat), h < 100 → m < 100 →
      parseWhen (((if opt then cp "weekly " else []) ++
          (if useLong then long else short) ++ [32]) ++ timeTok h m)
        = if h < 24 ∧ m < 60 then some (cronWeeklyStr w h m) else none := by
  intro short long w hmem useLong opt h m hh hm
  simp only [weekdayTable, List.mem_cons, List.not_mem_nil, or_false,
    Prod.mk.injEq] at hmem
  rcases hmem with h0 | h0 | h0 | h0 | h0 | h0 | h0 <;>
    obtain ⟨rfl, rfl, rfl⟩ := h0
  · cases useLong <;> cases opt <;>
      (refine parseWhen_weekly_shape []
        [(cp "tue", cp "tuesday", 2), (cp "wed", cp "wednesday", 3),
         (cp "thu", cp "thursday", 4), (cp "fri", cp "friday", 5),
         (cp "sat", cp "saturday", 6), (cp "sun", cp "sunday", 7)]
        (cp "mon") (cp "monday") 1 _ _ h m hh hm rfl ?_ ?_ ?_ ?_ ?_ rfl ?_ ?_ <;>
        decide)
  · cases useLong <;> cases opt <;>
      (refine parseWhen_weekly_shape [(cp "mon", cp "monday", 1)]
        [(cp "wed", cp "wednesday", 3), (cp "thu", cp "thursday", 4),
         (cp "fri", cp "friday", 5), (cp "sat", cp "saturday", 6),
         (cp "sun", cp "sunday", 7)]
        (cp "tue") (cp "tuesday") 2 _ _ h m hh hm rfl
        ?_ ?_ ?_ ?_ ?_ rfl ?_ ?_ <;> decide)
  · cases useLong <;> cases opt <;>
      (refine parseWhen_weekly_shape
        [(cp "mon", cp "monday", 1), (cp "tue", cp "tuesday", 2)]
        [(cp "thu", cp "thursday", 4), (cp "fri", cp "friday", 5),
         (cp "sat", cp "saturday", 6), (cp "sun", cp "sunday", 7)]
        (cp "wed") (cp "wednesday") 3 _ _ h m hh hm rfl ?_ ?_ ?_ ?_ ?_ rfl
        ?_ ?_ <;> decide)
  · cases useLong <;> cases opt <;>
      (refine parseWhen_weekly_shape
        [(cp "mon", cp "monday", 1), (cp "tue", cp "tuesday", 2),
         (cp "wed", cp "wednesday", 3)]
        [(cp "fri", cp "friday", 5), (cp "sat", cp "saturday", 6),
         (cp "sun", cp "sunday", 7)]
        (cp "thu") (cp "thursday") 4 _ _ h m hh hm rfl ?_ ?_ ?_ ?_ ?_ rfl
        ?_ ?_ <;> decide)
  · cases useLong <;> cases opt <;>
      (refine parseWhen_weekly_shape
        [(cp "mon", cp "monday", 1), (cp "tue", cp "tuesday", 2),
         (cp "wed", cp "wednesday", 3), (cp "thu", cp "thursday", 4)]
        [(cp "sat", cp "saturday", 6), (cp "sun", cp "sunday", 7)]
        (cp "fri") (cp "friday") 5 _ _ h m hh hm rfl ?_ ?_ ?_ ?_ ?_ rfl
        ?_ ?_ <;> decide)
  · cases useLong <;> cases opt <;>
      (refine parseWhen_weekly_shape
        [(cp "mon", cp "monday", 1), (cp "tue", cp "tuesday", 2),
         (cp "wed", cp "wednesday", 3), (cp "thu", cp "thursday", 4),
         (cp "fri", cp "friday", 5)]
        [(cp "sun", cp "sunday", 7)]
        (cp "sat") (cp "saturday") 6 _ _ h m hh hm rfl ?_ ?_ ?_ ?_ ?_ rfl
        ?_ ?_ <;> decide)
  · cases useLong <;> cases opt <;>
      (refine parseWhen_weekly_shape
        [(cp "mon", cp "monday", 1), (cp "tue", cp "tuesday", 2),
         (cp "wed", cp "wednesday", 3), (cp "thu", cp "thursday", 4),
         (cp "fri", cp "friday", 5), (cp "sat", cp "saturday", 6)]
        []
        (cp "sun") (cp "sunday") 7 _ _ h m hh hm rfl ?_ ?_ ?_ ?_ ?_ rfl
        ?_ ?_ <;> decide)

theorem parseWhen_lowercase (s : List Nat) :
    parseWhen s = parseWhen (lowerCp s) := by
  rw [parseWhen, parseWhen, lowerCp_idem]

/-- Claim C5: the cadence parser is case-insensitive; `daily HH:MM` maps
to `0 MM HH * * * *` exactly when `HH ∈ [0,23]` and `MM ∈ [0,59]` and is
rejected otherwise (also by the monthly and weekly grammars);
`monthly D HH:MM` maps to `0 MM HH D * * *` exactly when additionally
`D ∈ [1,31]`; optional `weekly` plus a full or three-letter weekday plus
`HH:MM` maps to `0 MM HH * * W *` with `W` the ISO weekday number; and the
spec's examples behave as stated, `DAILY 00:00` parsing to
`0 0 0 * * * *` while `daily 24:00`, `monthly 0 00:00` and `Moonday 00:00`
are rejected by all three grammars. -/
theorem c5CadenceParser :
    (∀ s, parseWhen s = parseWhen (lowerCp s)) ∧
      (∀ h m, h < 100 → m < 100 →
        parseWhen (cp "daily " ++ timeTok h m)
          = if h < 24 ∧ m < 60 then some (cronDailyStr h m) else none) ∧
      (∀ d h m, d < 100 → h < 100 → m < 100 →
        parseWhen (cp "monthly " ++ (natCp d ++ 32 :: timeTok h m))
          = if (1 ≤ d ∧ d ≤ 31) ∧ h < 24 ∧ m < 60
            then some (cronMonthlyStr d h m) else none) ∧
      (∀ short long w, (short, long, w) ∈ weekdayTable →
        ∀ (useLong opt : Bool) (h m : Nat), h < 100 → m < 100 →
          parseWhen (((if opt then cp "weekly " else []) ++
              (if useLong then long else short) ++ [32]) ++ timeTok h m)
            = if h < 24 ∧ m < 60 then some (cronWeeklyStr w h m) else none) ∧
      parseWhen (cp "DAILY 00:00") = some (cp "0 0 0 * * * *") ∧
      parseWhen (cp "daily 24:00") = none ∧
      parseWhen (cp "monthly 0 00:00") = none ∧
      parseWhen (cp "Moonday 00:00") = none := by
  refine ⟨parseWhen_lowercase,
    fun h m hh hm => parseWhen_dIn hh hm,
    fun d h m hd hh hm => parseWhen_mIn hd hh hm,
    parseWhen_weekly_all, by decide, by decide, by decide, by decide⟩

theorem c5CadenceParserWitness :
    parseWhen (cp "daily 12:30") = some (cp "0 30 12 * * * *") ∧
      parseWhen (cp "monthly 31 23:59") = some (cp "0 59 23 31 * * *") ∧
      parseWhen (cp "weekly mon 09:30") = some (cp "0 30 9 * * 1 *") := by
  have h1 := c5CadenceParser.2.1 12 30 (by omega) (by omega)
  have h2 := c5CadenceParser.2.2.1 31 23 59 (by omega) (by omega) (by omega)
  have h3 := c5CadenceParser.2.2.2.1 (cp "mon") (cp "monday") 1 (by decide)
    false true 9 30 (by omega) (by omega)
  refine ⟨?_, ?_, ?_⟩
  · rw [show cp "daily 12:30" = cp "daily " ++ timeTok 12 30 from by decide,
      h1]
    decide
  · rw [show cp "monthly 31 23:59"
        = cp "monthly " ++ (natCp 31 ++ 32 :: timeTok 23 59) from by decide,
      h2]
    decide
  · rw [show cp "weekly mon 09:30"
        = ((if true then cp "weekly " else []) ++
            (if false then cp "monday" else cp "mon") ++ [32]) ++ timeTok 9 30
        from by decide,
      h3]
    decide

end Bacup
